import Mathlib

/-!
Verification of the sculpt-3D mesh sculpting engine.

This file gives a shallow embedding of the core algorithms of the repository
and proves or refutes the specified properties about them:

* the adaptive local subdivision `subdivideGeometryLocally`
  (src/utils/meshSubdivision.ts, adaptive version): edge marking,
  consistency propagation (capped at 5 iterations), midpoint creation with
  the spherical-projection branch, and the 8-pattern triangle rebuild;
* the per-frame deformation pass of the sculpt callback
  (src/hooks/useSculpting.ts): mirror-point expansion across symmetry axes
  and the falloff-based vertex displacement for the add / subtract / push
  tools;
* the push-tool history state machine (resetPushTool / tool change /
  pointer release);
* the version-guard protocol used to reject stroke results computed
  against a stale geometry version.

Modelling conventions, used throughout:

* Scalars are taken in an arbitrary `LinearOrderedField K`.  The source
  computes with IEEE doubles; every concrete input of the program is a
  rational number, so theorems are typically instantiated at `K = ℚ`
  (exact evaluation) or `K = ℝ` (the idealized real semantics).
* The source compares Euclidean distances, `v.distanceTo(w) < c` and so on.
  Each such comparison is embedded square-root-free by the exactly
  equivalent comparison of squared distances (`distLT`, `distGT` below);
  lemmas `distGT_iff_sqrt` and `distLT_iff_sqrt` prove over `ℝ` that these
  encodings agree with the square-root form the source computes.
* Where the source needs the numeric value of a square root (the spherical
  projection of midpoints, the falloff of the deformation pass), the
  embedding takes the square-root function as an explicit argument `sq`;
  theorems about numeric values instantiate it with `Real.sqrt`.
* The index buffer of a `BufferGeometry` is read by the source in
  consecutive triples; the embedding stores it as a list of triples.
-/

namespace Sculpt

/-- A 3-component vector, the embedding of `THREE.Vector3`. -/
structure Vec3 (α : Type) where
  x : α
  y : α
  z : α
  deriving DecidableEq, Repr

namespace Vec3

variable {α : Type}

instance [Add α] : Add (Vec3 α) :=
  ⟨fun a b => ⟨a.x + b.x, a.y + b.y, a.z + b.z⟩⟩

instance [Sub α] : Sub (Vec3 α) :=
  ⟨fun a b => ⟨a.x - b.x, a.y - b.y, a.z - b.z⟩⟩

instance [Neg α] : Neg (Vec3 α) :=
  ⟨fun a => ⟨-a.x, -a.y, -a.z⟩⟩

instance [Zero α] : Zero (Vec3 α) :=
  ⟨⟨0, 0, 0⟩⟩

/-- Scale a vector by a scalar (`multiplyScalar`). -/
def scale [Mul α] (c : α) (v : Vec3 α) : Vec3 α :=
  ⟨c * v.x, c * v.y, c * v.z⟩

/-- Dot product. -/
def dot [Mul α] [Add α] (a b : Vec3 α) : α :=
  a.x * b.x + a.y * b.y + a.z * b.z

/-- Squared Euclidean norm (`lengthSq`). -/
def normSq [Mul α] [Add α] (a : Vec3 α) : α :=
  dot a a

/-- Squared Euclidean distance between two points (`distanceToSquared`). -/
def distSq [Mul α] [Add α] [Sub α] (a b : Vec3 α) : α :=
  normSq (a - b)

end Vec3

section Comparisons

variable {K : Type} [LinearOrderedField K]

/-- Embedding of the comparison `a.distanceTo(b) > c` of the source,
written square-root-free: the Euclidean distance (a nonnegative square
root) exceeds `c` exactly when `c` is negative or `c ^ 2` is below the
squared distance.  `distGT_iff_sqrt` proves the equivalence over `ℝ`. -/
def distGT (a b : Vec3 K) (c : K) : Prop :=
  c < 0 ∨ c ^ 2 < Vec3.distSq a b

/-- Embedding of the comparison `a.distanceTo(b) < c` of the source,
written square-root-free.  `distLT_iff_sqrt` proves the equivalence
over `ℝ`. -/
def distLT (a b : Vec3 K) (c : K) : Prop :=
  0 < c ∧ Vec3.distSq a b < c ^ 2

instance (a b : Vec3 K) (c : K) : Decidable (distGT a b c) := by
  unfold distGT; exact inferInstance

instance (a b : Vec3 K) (c : K) : Decidable (distLT a b c) := by
  unfold distLT; exact inferInstance

lemma Vec3.normSq_nonneg (a : Vec3 K) : 0 ≤ Vec3.normSq a := by
  have hx : 0 ≤ a.x * a.x := mul_self_nonneg _
  have hy : 0 ≤ a.y * a.y := mul_self_nonneg _
  have hz : 0 ≤ a.z * a.z := mul_self_nonneg _
  unfold Vec3.normSq Vec3.dot
  linarith

lemma Vec3.distSq_nonneg (a b : Vec3 K) : 0 ≤ Vec3.distSq a b :=
  Vec3.normSq_nonneg _

end Comparisons

/-- Over the reals, `distGT` is exactly the comparison the source makes on
the square-root value. -/
lemma distGT_iff_sqrt (a b : Vec3 ℝ) (c : ℝ) :
    distGT a b c ↔ c < Real.sqrt (Vec3.distSq a b) := by
  unfold distGT
  constructor
  · rintro (hc | hc)
    · exact lt_of_lt_of_le hc (Real.sqrt_nonneg _)
    · have h0 : 0 ≤ Vec3.distSq a b := Vec3.distSq_nonneg a b
      rcases le_or_lt 0 c with hc0 | hc0
      · exact (Real.lt_sqrt hc0).2 hc
      · exact lt_of_lt_of_le hc0 (Real.sqrt_nonneg _)
  · intro h
    rcases lt_or_le c 0 with hc0 | hc0
    · exact Or.inl hc0
    · exact Or.inr ((Real.lt_sqrt hc0).1 h)

/-- Over the reals, `distLT` is exactly the comparison the source makes on
the square-root value. -/
lemma distLT_iff_sqrt (a b : Vec3 ℝ) (c : ℝ) :
    distLT a b c ↔ Real.sqrt (Vec3.distSq a b) < c := by
  unfold distLT
  constructor
  · rintro ⟨hc, h⟩
    have h0 : 0 ≤ Vec3.distSq a b := Vec3.distSq_nonneg a b
    calc Real.sqrt (Vec3.distSq a b) < Real.sqrt (c ^ 2) := by
          exact Real.sqrt_lt_sqrt h0 h
      _ = c := by
          rw [sq]; exact Real.sqrt_mul_self (le_of_lt hc)
  · intro h
    have hc : 0 < c := lt_of_le_of_lt (Real.sqrt_nonneg _) h
    refine ⟨hc, ?_⟩
    have := Real.sq_sqrt (Vec3.distSq_nonneg a b)
    calc Vec3.distSq a b = Real.sqrt (Vec3.distSq a b) ^ 2 := this.symm
      _ < c ^ 2 := by
          exact pow_lt_pow_left₀ h (Real.sqrt_nonneg _) (by norm_num)

/-- A triangle of the index buffer: three vertex indices, read from three
consecutive entries of the source index array. -/
abbrev Tri : Type := ℕ × ℕ × ℕ

/-- An undirected edge key: the canonically ordered pair of vertex indices,
the embedding of the string key `makeEdgeKey` of the source. -/
abbrev EKey : Type := ℕ × ℕ

/-- Canonical undirected key of an edge (`makeEdgeKey` of the source). -/
def edgeKey (i j : ℕ) : EKey :=
  if i < j then (i, j) else (j, i)

lemma edgeKey_comm (i j : ℕ) : edgeKey i j = edgeKey j i := by
  unfold edgeKey
  rcases Nat.lt_trichotomy i j with h | h | h
  · rw [if_pos h, if_neg (by omega)]
  · subst h; rfl
  · rw [if_neg (by omega), if_pos h]

lemma edgeKey_fst_le_snd (i j : ℕ) : (edgeKey i j).1 ≤ (edgeKey i j).2 := by
  unfold edgeKey
  split <;> simp <;> omega

lemma edgeKey_of_lt {i j : ℕ} (h : i < j) : edgeKey i j = (i, j) := by
  unfold edgeKey; rw [if_pos h]

lemma edgeKey_mem_pair (i j : ℕ) :
    (edgeKey i j).1 = i ∧ (edgeKey i j).2 = j ∨
    (edgeKey i j).1 = j ∧ (edgeKey i j).2 = i := by
  unfold edgeKey; split
  · exact Or.inl ⟨rfl, rfl⟩
  · exact Or.inr ⟨rfl, rfl⟩

/-- The three undirected edge keys of a triangle, in the order the source
enumerates them (01, 12, 20). -/
def triEdges (t : Tri) : List EKey :=
  [edgeKey t.1 t.2.1, edgeKey t.2.1 t.2.2, edgeKey t.2.2 t.1]

/-- A mesh: vertex positions plus the index buffer as triples.  Embedding of
the position attribute and index of a `BufferGeometry`. -/
structure Mesh (K : Type) where
  vertices : List (Vec3 K)
  tris : List Tri
  deriving DecidableEq

section Subdivision

variable {K : Type} [LinearOrderedField K]

/-- Vertex position lookup, `vertices[i]` of the source (zero vector out of
range; the source never indexes out of range on valid meshes). -/
def vtx (vs : List (Vec3 K)) (i : ℕ) : Vec3 K :=
  vs.getD i 0

/-- Chord midpoint of an edge, `v1.clone().add(v2).multiplyScalar(0.5)`. -/
def edgeMid (vs : List (Vec3 K)) (i j : ℕ) : Vec3 K :=
  Vec3.scale (1 / 2) (vtx vs i + vtx vs j)

/-- STEP 1 marking condition for one edge of one triangle: the edge is
longer than `maxEdgeLength`, and either its midpoint lies within `radius`
of the subdivision point or the edge is longer than `maxEdgeLength * 2`
regardless of distance. -/
def markCond (vs : List (Vec3 K)) (point : Vec3 K) (radius maxEdgeLength : K)
    (i j : ℕ) : Prop :=
  distGT (vtx vs i) (vtx vs j) maxEdgeLength ∧
    (distLT (edgeMid vs i j) point radius ∨
      distGT (vtx vs i) (vtx vs j) (maxEdgeLength * 2))

instance (vs : List (Vec3 K)) (point : Vec3 K) (radius maxEdgeLength : K)
    (i j : ℕ) : Decidable (markCond vs point radius maxEdgeLength i j) := by
  unfold markCond; exact inferInstance

/-- Insertion into a deduplicating, insertion-ordered edge-key set: the
embedding of `Set.add` of the JS `Set` used by the source. -/
def insertKey (S : List EKey) (k : EKey) : List EKey :=
  if k ∈ S then S else S ++ [k]

/-- The marking pass of one triangle: test its three edges in source order
(01, 12, 20) and insert the keys of qualifying edges. -/
def markTri (vs : List (Vec3 K)) (point : Vec3 K) (radius maxEdgeLength : K)
    (S : List EKey) (t : Tri) : List EKey :=
  let S1 := if markCond vs point radius maxEdgeLength t.1 t.2.1 then
      insertKey S (edgeKey t.1 t.2.1) else S
  let S2 := if markCond vs point radius maxEdgeLength t.2.1 t.2.2 then
      insertKey S1 (edgeKey t.2.1 t.2.2) else S1
  if markCond vs point radius maxEdgeLength t.2.2 t.1 then
    insertKey S2 (edgeKey t.2.2 t.1) else S2

/-- STEP 1 of `subdivideGeometryLocally`: the set of edge keys marked for
subdivision by the geometric criterion. -/
def markEdges (vs : List (Vec3 K)) (point : Vec3 K) (radius maxEdgeLength : K)
    (tris : List Tri) : List EKey :=
  tris.foldl (markTri vs point radius maxEdgeLength) []

/-- Number of marked edges among the three edges of a triangle
(`markedCount` of the source). -/
def markedCount (S : List EKey) (t : Tri) : ℕ :=
  (triEdges t).countP (fun e => decide (e ∈ S))

/-- Treatment of one triangle in a propagation iteration: when exactly 2
of its 3 edges are marked (counted against the set `S0` at the start of
the iteration, as in the source), all its edges are inserted into the
accumulator (the source inserts only the unmarked ones, which yields the
same set). -/
def propStepTri (S0 : List EKey) (A : List EKey) (t : Tri) : List EKey :=
  if markedCount S0 t = 2 then
    insertKey (insertKey (insertKey A (edgeKey t.1 t.2.1))
      (edgeKey t.2.1 t.2.2)) (edgeKey t.2.2 t.1)
  else A

/-- One iteration of the consistency-propagation loop: every triangle with
exactly 2 of its 3 edges marked gets its third edge marked as well.  The
source iterates over marked edges and their adjacent triangles; a triangle
with exactly two marked edges is always adjacent to a marked edge, and
triangles with fewer marks contribute nothing, so folding over all
triangles computes the same set. -/
def propStep (tris : List Tri) (S : List EKey) : List EKey :=
  tris.foldl (propStepTri S) S

/-- The consistency-propagation loop: repeat `propStep` while it changes
the set, for at most `fuel` iterations (the source caps the `while` loop
at 5 body executions). -/
def propagate (tris : List Tri) : ℕ → List EKey → List EKey
  | 0, S => S
  | n + 1, S =>
    let S1 := propStep tris S
    if S1 = S then S else propagate tris n S1

/-- The final marked-edge set of `subdivideGeometryLocally`: geometric
marking followed by at most 5 propagation iterations. -/
def subdivMarked (m : Mesh K) (point : Vec3 K) (radius maxEdgeLength : K) :
    List EKey :=
  propagate m.tris 5 (markEdges m.vertices point radius maxEdgeLength m.tris)

/-- Position of a key in a list of keys (0 when absent past the end). -/
def posOf : List EKey → EKey → ℕ
  | [], _ => 0
  | k :: ks, e => if e = k then 0 else posOf ks e + 1

/-- Index assigned to the midpoint vertex of marked edge `e`: the new
vertices are appended after the `n` original ones, one per marked key in
the enumeration order of the marked set. -/
def midIdx (n : ℕ) (keys : List EKey) (e : EKey) : ℕ :=
  n + posOf keys e

/-- Square-root-free encoding of the spherical-surface test of STEP 2 of
the source: with `n1`, `n2` the squared norms of the edge endpoints, the
source tests that both endpoint norms are within 0.3 of their average,
which holds exactly when the norms differ by less than 3/5; squaring gives
this condition.  `nearSphere_iff_sqrt` proves the equivalence over `ℝ`. -/
def nearSphere (n1 n2 : K) : Prop :=
  n1 + n2 - 9 / 25 < 0 ∨ (n1 + n2 - 9 / 25) ^ 2 < 4 * (n1 * n2)

instance (n1 n2 : K) : Decidable (nearSphere n1 n2) := by
  unfold nearSphere; exact inferInstance

/-- Over the reals, `nearSphere` on the squared norms is exactly the test
the source makes on the two lengths: both within 0.3 of their average. -/
lemma nearSphere_iff_sqrt (n1 n2 : ℝ) (h1 : 0 ≤ n1) (h2 : 0 ≤ n2) :
    nearSphere n1 n2 ↔
      (|Real.sqrt n1 - (Real.sqrt n1 + Real.sqrt n2) * (1 / 2)| < 3 / 10 ∧
        |Real.sqrt n2 - (Real.sqrt n1 + Real.sqrt n2) * (1 / 2)| < 3 / 10) := by
  have hl1 : Real.sqrt n1 ^ 2 = n1 := Real.sq_sqrt h1
  have hl2 : Real.sqrt n2 ^ 2 = n2 := Real.sq_sqrt h2
  have hp : 0 ≤ Real.sqrt n1 * Real.sqrt n2 :=
    mul_nonneg (Real.sqrt_nonneg _) (Real.sqrt_nonneg _)
  rw [nearSphere, abs_lt, abs_lt]
  set a := Real.sqrt n1
  set b := Real.sqrt n2
  constructor
  · rintro (hc | hc)
    · refine ⟨⟨?_, ?_⟩, ?_, ?_⟩ <;> nlinarith [hp, hc, hl1, hl2]
    · have ht : n1 + n2 - 9 / 25 < 2 * (a * b) := by
        nlinarith [hp, hc, hl1, hl2]
      refine ⟨⟨?_, ?_⟩, ?_, ?_⟩ <;> nlinarith [hp, ht, hl1, hl2]
  · rintro ⟨⟨c1, c2⟩, c3, c4⟩
    have hd : n1 + n2 - 9 / 25 < 2 * (a * b) := by
      nlinarith [c1, c2, hl1, hl2]
    rcases lt_or_le (n1 + n2 - 9 / 25) 0 with hc | hc
    · exact Or.inl hc
    · exact Or.inr (by nlinarith [hd, hc, hp, hl1, hl2])

/-- STEP 2 of `subdivideGeometryLocally`: the position of the midpoint
vertex created for marked edge `e` - the chord midpoint, projected back
onto the sphere of the average endpoint radius when both endpoints lie at
approximately equal distance from the origin.  `sq` is the square-root
function of the scalar field (the source computes `Math.sqrt`; `normalize`
of the zero vector leaves it unchanged, hence the zero test). -/
def midpointPos (sq : K → K) (vs : List (Vec3 K)) (e : EKey) : Vec3 K :=
  let v1 := vtx vs e.1
  let v2 := vtx vs e.2
  let mid := Vec3.scale (1 / 2) (v1 + v2)
  if nearSphere (Vec3.normSq v1) (Vec3.normSq v2) then
    let avg := (sq (Vec3.normSq v1) + sq (Vec3.normSq v2)) * (1 / 2)
    let len := sq (Vec3.normSq mid)
    if len = 0 then mid else Vec3.scale (avg / len) mid
  else
    mid

/-- STEP 3 of `subdivideGeometryLocally`: replace one triangle according to
the 8-pattern switch of the source (pattern bit 1 = edge 01 marked, bit 2 =
edge 12, bit 4 = edge 20). -/
def rebuildTri (S : List EKey) (mid : EKey → ℕ) (t : Tri) : List Tri :=
  let i0 := t.1
  let i1 := t.2.1
  let i2 := t.2.2
  let m01 := mid (edgeKey i0 i1)
  let m12 := mid (edgeKey i1 i2)
  let m20 := mid (edgeKey i2 i0)
  match (decide (edgeKey i0 i1 ∈ S)), (decide (edgeKey i1 i2 ∈ S)),
      (decide (edgeKey i2 i0 ∈ S)) with
  | false, false, false => [(i0, i1, i2)]
  | true, false, false => [(i0, m01, i2), (m01, i1, i2)]
  | false, true, false => [(i0, i1, m12), (i0, m12, i2)]
  | true, true, false => [(i0, m01, i2), (m01, i1, m12), (m01, m12, i2)]
  | false, false, true => [(i0, i1, m20), (i1, i2, m20)]
  | true, false, true => [(i0, m01, m20), (m01, i1, i2), (m20, m01, i2)]
  | false, true, true => [(i0, i1, m12), (i0, m12, m20), (m20, m12, i2)]
  | true, true, true =>
      [(i0, m01, m20), (i1, m12, m01), (i2, m20, m12), (m01, m12, m20)]

/-- The adaptive local subdivision `subdivideGeometryLocally` of
meshSubdivision.ts (adaptive version): mark long edges near the point,
propagate marks for consistency, create one midpoint vertex per marked
edge, and rebuild every triangle by its pattern.  The source enumerates
the marked set in insertion order when creating midpoints; the embedding
keeps the marked set as an insertion-ordered duplicate-free list, so the
enumeration is the list itself. -/
def subdivideGeometryLocally (sq : K → K) (m : Mesh K) (point : Vec3 K)
    (radius maxEdgeLength : K) : Mesh K :=
  let keys := subdivMarked m point radius maxEdgeLength
  let n := m.vertices.length
  { vertices := m.vertices ++ keys.map (midpointPos sq m.vertices)
    tris := m.tris.flatMap (rebuildTri keys (midIdx n keys)) }

end Subdivision

/-- The sculpting tools of the application (`ToolType`). -/
inductive Tool where
  | add
  | subtract
  | push
  | select
  | move
  | scale
  deriving DecidableEq, Repr

/-- The symmetry configuration: which local mirror axes are active. -/
structure SymAxes where
  x : Bool
  y : Bool
  z : Bool
  deriving DecidableEq, Repr

/-- One point/normal pair of the expanded brush-point set. -/
structure MirrorData (K : Type) where
  point : Vec3 K
  normal : Vec3 K
  deriving DecidableEq

section Mirrors

variable {K : Type} [LinearOrderedField K]

/-- The mirror combinations pushed by the sculpt callback for the active
axes (useSculpting.ts lines 567-610), in source order: single-axis x, y,
z, then the pairs xy, xz, yz, then xyz.  Each combination negates the
mirrored coordinates of both the point and the normal.  Built in the
local frame of the object as in the source; the source then converts each
pair back to world space with the world matrix, which changes neither the
count nor the order of the list. -/
def mirrorCombinations (axes : SymAxes) (p n : Vec3 K) : List (MirrorData K) :=
  (if axes.x then [⟨⟨-p.x, p.y, p.z⟩, ⟨-n.x, n.y, n.z⟩⟩] else []) ++
  (if axes.y then [⟨⟨p.x, -p.y, p.z⟩, ⟨n.x, -n.y, n.z⟩⟩] else []) ++
  (if axes.z then [⟨⟨p.x, p.y, -p.z⟩, ⟨n.x, n.y, -n.z⟩⟩] else []) ++
  (if axes.x && axes.y then [⟨⟨-p.x, -p.y, p.z⟩, ⟨-n.x, -n.y, n.z⟩⟩] else []) ++
  (if axes.x && axes.z then [⟨⟨-p.x, p.y, -p.z⟩, ⟨-n.x, n.y, -n.z⟩⟩] else []) ++
  (if axes.y && axes.z then [⟨⟨p.x, -p.y, -p.z⟩, ⟨n.x, -n.y, -n.z⟩⟩] else []) ++
  (if axes.x && axes.y && axes.z then
    [⟨⟨-p.x, -p.y, -p.z⟩, ⟨-n.x, -n.y, -n.z⟩⟩] else [])

/-- The expanded brush-point list `mirrorPoints` (lines 552-619): the
original pair first, then the mirror combinations.  The source only
enters the mirroring block when some axis is active; with no active axis
the combination list is empty, as in the source. -/
def mirrorPoints (axes : SymAxes) (p n : Vec3 K) : List (MirrorData K) :=
  ⟨p, n⟩ ::
    (if axes.x || axes.y || axes.z then mirrorCombinations axes p n else [])

/-- Mirror a vector across the axes flagged in `c`: negate exactly the
flagged coordinates. -/
def applyMirror (c : SymAxes) (v : Vec3 K) : Vec3 K :=
  ⟨if c.x then -v.x else v.x, if c.y then -v.y else v.y,
    if c.z then -v.z else v.z⟩

/-- The fixed enumeration of the seven nonempty axis subsets in source
order: singles, then pairs, then the triple. -/
def axisCombos : List SymAxes :=
  [⟨true, false, false⟩, ⟨false, true, false⟩, ⟨false, false, true⟩,
    ⟨true, true, false⟩, ⟨true, false, true⟩, ⟨false, true, true⟩,
    ⟨true, true, true⟩]

/-- Whether every axis flagged in `c` is active in `axes`. -/
def subAxes (c axes : SymAxes) : Bool :=
  (!c.x || axes.x) && (!c.y || axes.y) && (!c.z || axes.z)

/-- Number of active symmetry axes. -/
def countAxes (axes : SymAxes) : ℕ :=
  (cond axes.x 1 0) + (cond axes.y 1 0) + (cond axes.z 1 0)

end Mirrors

section Deformation

variable {K : Type} [LinearOrderedField K]

/-- `Math.sign`. -/
def msign (a : K) : K :=
  if a < 0 then -1 else if 0 < a then 1 else 0

/-- Parameters of the deformation phase of one sculpt sample. -/
structure DeformParams (K : Type) where
  tool : Tool
  brushSize : K
  brushStrength : K
  invert : Bool
  prev : Option (Vec3 K)
  primary : Vec3 K
  axes : SymAxes

/-- The mirrored push direction (useSculpting.ts lines 649-681): take the
drag movement of the primary point, express it in local space, flip each
component whose axis is active and along which the mirror point lies on
the other side of the origin than the primary point, and convert back to
world space.  (The reference check `mirrorData.point !== point` of the
source is true for every freshly constructed mirror pair, and this code
path only runs for non-primary entries.)  `toWorld` and `toLocal` stand
for application of the world matrix and its inverse. -/
def pushMirrorDirection (toWorld toLocal : Vec3 K → Vec3 K)
    (P : DeformParams K) (prev : Vec3 K) (mp : Vec3 K) : Vec3 K :=
  let localMovement := toLocal (P.primary - prev)
  let localOriginal := toLocal P.primary
  let localMirror := toLocal mp
  let m1 : Vec3 K :=
    if P.axes.x ∧ msign localOriginal.x ≠ msign localMirror.x then
      ⟨-localMovement.x, localMovement.y, localMovement.z⟩ else localMovement
  let m2 : Vec3 K :=
    if P.axes.y ∧ msign localOriginal.y ≠ msign localMirror.y then
      ⟨m1.x, -m1.y, m1.z⟩ else m1
  let m3 : Vec3 K :=
    if P.axes.z ∧ msign localOriginal.z ≠ msign localMirror.z then
      ⟨m2.x, m2.y, -m2.z⟩ else m2
  toWorld m3

/-- The world-space displacement the deformation loop (lines 626-713)
writes for one vertex during the pass for one mirror point, or `none` when
the loop skips the vertex: out of brush radius, push without drag history,
or negligible drag direction.  `sq` is the square-root function of the
scalar field (`Math.sqrt` in the source): the distance, the falloff and
the drag normalization use its value. -/
def deformDelta (sq : K → K) (toWorld toLocal : Vec3 K → Vec3 K)
    (P : DeformParams K) (isPrimary : Bool) (md : MirrorData K)
    (v : Vec3 K) : Option (Vec3 K) :=
  let w := toWorld v
  let distance := sq (Vec3.distSq w md.point)
  if distance < P.brushSize then
    let falloff := 1 - distance / P.brushSize
    let strength := P.brushStrength * falloff * falloff * (2 / 10)
    if P.tool = Tool.push then
      match P.prev with
      | none => none
      | some prev =>
        let dir0 := if isPrimary then md.point - prev
          else pushMirrorDirection toWorld toLocal P prev md.point
        if sq (Vec3.normSq dir0) < 1 / 1000 then none
        else
          let dir := Vec3.scale (1 / sq (Vec3.normSq dir0)) dir0
          let moveDistance := sq (Vec3.distSq P.primary prev)
          let mult0 := strength * min (moveDistance * 25) 5
          let mult := if P.invert then -mult0 else mult0
          some (Vec3.scale mult dir)
    else
      let mult0 := if P.tool = Tool.subtract then -strength else strength
      let mult := if P.invert then -mult0 else mult0
      some (Vec3.scale mult md.normal)
  else none

/-- One pass of the deformation loop for a fixed mirror point: each written
vertex moves by its world displacement (converted back to local space by
the inverse world matrix); the flag records whether any vertex was
written. -/
def deformPass (sq : K → K) (toWorld toLocal : Vec3 K → Vec3 K)
    (P : DeformParams K) (isPrimary : Bool) (md : MirrorData K)
    (vs : List (Vec3 K)) : List (Vec3 K) × Bool :=
  (vs.map (fun v =>
      match deformDelta sq toWorld toLocal P isPrimary md v with
      | none => v
      | some d => toLocal (toWorld v + d)),
    vs.any (fun v =>
      (deformDelta sq toWorld toLocal P isPrimary md v).isSome))

/-- Run the deformation passes for a tagged list of mirror points (the tag
says whether the entry is the primary one), threading the vertex list and
accumulating the `modified` flag, as the in-place writes of the source
do. -/
def deformMirrors (sq : K → K) (toWorld toLocal : Vec3 K → Vec3 K)
    (P : DeformParams K) :
    List (Bool × MirrorData K) → List (Vec3 K) × Bool →
      List (Vec3 K) × Bool
  | [], acc => acc
  | (b, md) :: rest, acc =>
    let r := deformPass sq toWorld toLocal P b md acc.1
    deformMirrors sq toWorld toLocal P rest (r.1, acc.2 || r.2)

/-- The full deformation phase (lines 622-715): one pass per entry of the
expanded point list; the first entry is the primary point (the source
detects it by object identity with `mirrorPoints[0]`). -/
def deformAll (sq : K → K) (toWorld toLocal : Vec3 K → Vec3 K)
    (P : DeformParams K) (mds : List (MirrorData K)) (vs : List (Vec3 K)) :
    List (Vec3 K) × Bool :=
  match mds with
  | [] => (vs, false)
  | md :: rest =>
    deformMirrors sq toWorld toLocal P
      ((true, md) :: rest.map (fun m => (false, m))) (vs, false)

/-- The deformation phase at mesh level: the loop writes only the position
attribute; the index buffer is not touched. -/
def deformMesh (sq : K → K) (toWorld toLocal : Vec3 K → Vec3 K)
    (P : DeformParams K) (mds : List (MirrorData K)) (m : Mesh K) :
    Mesh K × Bool :=
  let r := deformAll sq toWorld toLocal P mds m.vertices
  (⟨r.1, m.tris⟩, r.2)

end Deformation

/-- The push-tool history state of the sculpt hook: the `currentTool` prop
and the `pushToolLastPoint` ref. -/
structure PushState (P : Type) where
  currentTool : Tool
  pushLast : Option P
  deriving DecidableEq

/-- `resetPushTool` (useSculpting.ts lines 294-298): clears the stored
point only when the current tool is push. -/
def resetPushTool {P : Type} (s : PushState P) : PushState P :=
  if s.currentTool = Tool.push then { s with pushLast := none } else s

/-- `handleMouseUp` of SceneObject.tsx (lines 104-110): a pointer release
ends any drag and calls `resetPushTool`; nothing else touches the push
history. -/
def handleMouseUp {P : Type} (s : PushState P) : PushState P :=
  resetPushTool s

/-- A change of the `currentTool` prop: the hook re-renders with the new
tool; no code of the repository clears `pushToolLastPoint` on this
transition. -/
def changeTool {P : Type} (t : Tool) (s : PushState P) : PushState P :=
  { s with currentTool := t }

/-- End of a sculpt sample (useSculpting.ts line 724 and unnamed part_004
line 234): when the current tool is push, the primary world point is
stored as the new drag history. -/
def recordPushPoint {P : Type} (p : P) (s : PushState P) : PushState P :=
  if s.currentTool = Tool.push then { s with pushLast := some p } else s

/-- State of the versioned-geometry owner.  Modelled from the spec: the
component that owns `geometryVersionRef` and installs the version-checking
`onGeometryUpdate` is not under src - only its caller (the sculpt hook of
unnamed part_004, lines 167-237) and a test replica (unnamed part_006,
lines 819-959) are - so this follows the spec of section 5: every accepted
mesh replacement is tagged by a monotonically increasing version
counter. -/
structure VersionedGeo (G : Type) where
  geo : G
  version : ℕ
  deriving DecidableEq

/-- Modelled from the spec: `onGeometryUpdate` compares the version
captured at the start of the sample with the current version, rejects
(discards) the result on a mismatch, and otherwise installs the new
geometry and bumps the version.  This matches the replica in unnamed
part_006, lines 830-859. -/
def onGeometryUpdate {G : Type} (g : G) (startingVersion : ℕ)
    (s : VersionedGeo G) : VersionedGeo G × Bool :=
  if s.version ≠ startingVersion then (s, false)
  else (⟨g, s.version + 1⟩, true)

/-! ## Edge counting

The watertightness notion of the spec and of the test helper
`verifyWatertightMesh`: how many triangle edge slots of a triangle list
carry a given undirected key. -/

/-- Occurrence count of an edge key in a list of keys. -/
def cnt (k : EKey) : List EKey → ℕ
  | [] => 0
  | e :: es => (if e = k then 1 else 0) + cnt k es

/-- Edge-occurrence count of a key over a triangle list: the number of
triangle edge slots whose undirected key is `k`.  A mesh is closed
(watertight) at `k` when this is 2, and `k` is a boundary edge when it
is 1. -/
def edgeCount (tris : List Tri) (k : EKey) : ℕ :=
  cnt k (tris.flatMap triEdges)

lemma cnt_append (k : EKey) (l1 l2 : List EKey) :
    cnt k (l1 ++ l2) = cnt k l1 + cnt k l2 := by
  induction l1 with
  | nil => simp [cnt]
  | cons e es ih => simp [cnt, ih]; omega

lemma cnt_flatMap {α : Type} (k : EKey) (f : α → List EKey) (l : List α) :
    cnt k (l.flatMap f) = (l.map (fun t => cnt k (f t))).sum := by
  induction l with
  | nil => simp [cnt]
  | cons t ts ih => simp [List.flatMap_cons, cnt_append, ih]

lemma cnt_eq_zero_of_forall {k : EKey} {l : List EKey}
    (h : ∀ e ∈ l, e ≠ k) : cnt k l = 0 := by
  induction l with
  | nil => rfl
  | cons e es ih =>
    simp only [cnt, ih (fun x hx => h x (List.mem_cons_of_mem _ hx))]
    rw [if_neg (h e (List.mem_cons_self _ _))]

lemma cnt_pos_iff_mem {k : EKey} {l : List EKey} :
    0 < cnt k l ↔ k ∈ l := by
  induction l with
  | nil => simp [cnt]
  | cons e es ih =>
    rw [List.mem_cons]
    by_cases he : e = k
    · subst he
      simp [cnt]
    · simp only [cnt, if_neg he]
      rw [← ih]
      constructor
      · intro h; exact Or.inr (by omega)
      · rintro (h | h)
        · exact absurd h.symm he
        · omega

/-! ## The rebuild table (claim C2)

The 8-pattern switch analyzed at the level of abstract vertex roles: the
three corners and the three edge midpoints of one triangle, placed in a
reference plane so that winding is the sign of the doubled area. -/

/-- The six vertex roles of a subdivided triangle. -/
inductive Role where
  | v0
  | v1
  | v2
  | m01
  | m12
  | m20
  deriving DecidableEq, Repr

/-- Reference-plane coordinates of each role in the parametric triangle,
doubled to stay integral: corner 0 at the origin, corner 1 at (2,0),
corner 2 at (0,2), midpoints halfway. -/
def refCoord : Role → ℤ × ℤ
  | .v0 => (0, 0)
  | .v1 => (2, 0)
  | .v2 => (0, 2)
  | .m01 => (1, 0)
  | .m12 => (1, 1)
  | .m20 => (0, 1)

/-- The role-level rebuild table of the 8-pattern switch of STEP 3, case
by case identical to the source. -/
def rolesTable : Bool → Bool → Bool → List (Role × Role × Role)
  | false, false, false => [(.v0, .v1, .v2)]
  | true, false, false => [(.v0, .m01, .v2), (.m01, .v1, .v2)]
  | false, true, false => [(.v0, .v1, .m12), (.v0, .m12, .v2)]
  | true, true, false =>
    [(.v0, .m01, .v2), (.m01, .v1, .m12), (.m01, .m12, .v2)]
  | false, false, true => [(.v0, .v1, .m20), (.v1, .v2, .m20)]
  | true, false, true =>
    [(.v0, .m01, .m20), (.m01, .v1, .v2), (.m20, .m01, .v2)]
  | false, true, true =>
    [(.v0, .v1, .m12), (.v0, .m12, .m20), (.m20, .m12, .v2)]
  | true, true, true =>
    [(.v0, .m01, .m20), (.v1, .m12, .m01), (.v2, .m20, .m12),
      (.m01, .m12, .m20)]

/-- Signed doubled area of a role triple in the reference plane: positive
exactly when the triple winds the same way as the original corner order
(v0, v1, v2). -/
def refCross (t : Role × Role × Role) : ℤ :=
  let a := refCoord t.1
  let b := refCoord t.2.1
  let c := refCoord t.2.2
  (b.1 - a.1) * (c.2 - a.2) - (b.2 - a.2) * (c.1 - a.1)

/-- Instantiation of a role at a concrete triangle: corners map to the
triangle vertices, midpoint roles to the midpoint index of the matching
edge key. -/
def roleIdx (t : Tri) (mid : EKey → ℕ) : Role → ℕ
  | .v0 => t.1
  | .v1 => t.2.1
  | .v2 => t.2.2
  | .m01 => mid (edgeKey t.1 t.2.1)
  | .m12 => mid (edgeKey t.2.1 t.2.2)
  | .m20 => mid (edgeKey t.2.2 t.1)

/-- Number of triangles the rebuild table emits for a pattern: 1, 2, 3, 4
for 0, 1, 2, 3 marked edges. -/
def patternSize (b01 b12 b20 : Bool) : ℕ :=
  match (cond b01 1 0) + (cond b12 1 0) + (cond b20 1 0) with
  | 0 => 1
  | 1 => 2
  | 2 => 3
  | _ => 4

/-- C2: in the rebuild step, every original triangle is replaced according
to the number of its marked edges - 0 marked edges keep the triangle, 1
yields 2 triangles through the midpoint, 2 yield 3 triangles through both
midpoints, 3 yield 4 triangles (three corners plus the center triangle of
the three midpoints) - and every emitted triangle has the same winding
orientation as the original: `rebuildTri` is the instantiation of the
role-level table, whose every entry has positive reference-plane area. -/
theorem c2_rebuild_patterns_and_winding (S : List EKey) (mid : EKey → ℕ)
    (t : Tri) :
    rebuildTri S mid t =
      (rolesTable (decide (edgeKey t.1 t.2.1 ∈ S))
        (decide (edgeKey t.2.1 t.2.2 ∈ S))
        (decide (edgeKey t.2.2 t.1 ∈ S))).map
        (fun r => (roleIdx t mid r.1, roleIdx t mid r.2.1,
          roleIdx t mid r.2.2)) ∧
    (∀ b01 b12 b20 : Bool,
      (rolesTable b01 b12 b20).length = patternSize b01 b12 b20) ∧
    (∀ b01 b12 b20 : Bool, ∀ r ∈ rolesTable b01 b12 b20, 0 < refCross r) := by
  refine ⟨?_, by decide, by decide⟩
  unfold rebuildTri
  cases h01 : decide (edgeKey t.1 t.2.1 ∈ S) <;>
    cases h12 : decide (edgeKey t.2.1 t.2.2 ∈ S) <;>
      cases h20 : decide (edgeKey t.2.2 t.1 ∈ S) <;>
        simp only [h01, h12, h20] <;> simp [rolesTable, roleIdx]

/-- C5: symmetry expansion of one point/normal pair over the active axes
produces the original pair first, then one mirrored pair for each
nonempty subset of the active axes, singles before pairs before the
triple, each obtained by negating exactly the mirrored coordinates of
both point and normal in local space; the total count is two to the
number of active axes. -/
theorem c5_mirror_expansion {K : Type} [LinearOrderedField K]
    (axes : SymAxes) (p n : Vec3 K) :
    mirrorPoints axes p n =
      ⟨p, n⟩ :: (axisCombos.filter (fun c => subAxes c axes)).map
        (fun c => ⟨applyMirror c p, applyMirror c n⟩) ∧
    (mirrorPoints axes p n).length = 2 ^ countAxes axes := by
  obtain ⟨ax, ay, az⟩ := axes
  cases ax <;> cases ay <;> cases az <;>
    simp [mirrorPoints, mirrorCombinations, axisCombos, subAxes,
      applyMirror, countAxes]

/-- C6: under the version-guard protocol, when two stroke samples capture
the same starting version `v`, the first result is accepted (installing
its geometry and bumping the version to `v + 1`) and the second result is
rejected, leaving the geometry produced by the first sample in place. -/
theorem c6_version_guard_rejects_stale (G : Type) (g0 g1 g2 : G) (v : ℕ) :
    onGeometryUpdate g1 v ⟨g0, v⟩ = (⟨g1, v + 1⟩, true) ∧
    onGeometryUpdate g2 v (⟨g1, v + 1⟩ : VersionedGeo G) =
      (⟨g1, v + 1⟩, false) := by
  constructor
  · simp [onGeometryUpdate]
  · simp [onGeometryUpdate]

/-! ## Deformation-pass lemmas (claims C7, C8, C10) -/

section DeformLemmas

variable {K : Type} [LinearOrderedField K]

lemma Vec3.sub_def (a b : Vec3 K) :
    a - b = (⟨a.x - b.x, a.y - b.y, a.z - b.z⟩ : Vec3 K) := rfl

lemma Vec3.add_def (a b : Vec3 K) :
    a + b = (⟨a.x + b.x, a.y + b.y, a.z + b.z⟩ : Vec3 K) := rfl

lemma Vec3.normSq_scale (c : K) (v : Vec3 K) :
    Vec3.normSq (Vec3.scale c v) = c ^ 2 * Vec3.normSq v := by
  unfold Vec3.normSq Vec3.dot Vec3.scale
  ring

/-- Squared norm of an optional displacement (0 for a skipped vertex). -/
def optNormSq : Option (Vec3 K) → K
  | none => 0
  | some d => Vec3.normSq d

lemma optNormSq_nonneg (o : Option (Vec3 K)) : 0 ≤ optNormSq o := by
  cases o with
  | none => exact le_refl 0
  | some d => exact Vec3.normSq_nonneg d

lemma deformDelta_push_no_prev (sq : K → K) (tw tl : Vec3 K → Vec3 K)
    (P : DeformParams K) (hP : P.tool = Tool.push) (hprev : P.prev = none)
    (b : Bool) (md : MirrorData K) (v : Vec3 K) :
    deformDelta sq tw tl P b md v = none := by
  simp [deformDelta, hP, hprev]

lemma deformDelta_far (sq : K → K) (tw tl : Vec3 K → Vec3 K)
    (P : DeformParams K) (b : Bool) (md : MirrorData K) (v : Vec3 K)
    (h : ¬ sq (Vec3.distSq (tw v) md.point) < P.brushSize) :
    deformDelta sq tw tl P b md v = none := by
  simp only [deformDelta]
  rw [if_neg h]

lemma deformPass_of_delta_none (sq : K → K) (tw tl : Vec3 K → Vec3 K)
    (P : DeformParams K) (b : Bool) (md : MirrorData K)
    (h : ∀ v, deformDelta sq tw tl P b md v = none) (vs : List (Vec3 K)) :
    deformPass sq tw tl P b md vs = (vs, false) := by
  simp [deformPass, h]

lemma deformMirrors_of_delta_none (sq : K → K) (tw tl : Vec3 K → Vec3 K)
    (P : DeformParams K)
    (h : ∀ (b : Bool) (md : MirrorData K) (v : Vec3 K),
      deformDelta sq tw tl P b md v = none) :
    ∀ (L : List (Bool × MirrorData K)) (vs : List (Vec3 K)) (flag : Bool),
      deformMirrors sq tw tl P L (vs, flag) = (vs, flag) := by
  intro L
  induction L with
  | nil => intro vs flag; rfl
  | cons bm rest ih =>
    intro vs flag
    obtain ⟨b, md⟩ := bm
    simp only [deformMirrors, deformPass_of_delta_none sq tw tl P b md (h b md)]
    simpa using ih vs flag

end DeformLemmas

/-- C8: a push-tool sample with no previous world point displaces no
vertex and reports `modified = false`, for every mesh, brush size, brush
strength, symmetry-expanded point set, and world transform: the
deformation phase returns the mesh unchanged. -/
theorem c8_push_without_history_is_noop (toWorld toLocal : Vec3 ℝ → Vec3 ℝ)
    (P : DeformParams ℝ) (mds : List (MirrorData ℝ)) (m : Mesh ℝ)
    (hP : P.tool = Tool.push) (hprev : P.prev = none) :
    deformMesh Real.sqrt toWorld toLocal P mds m = (m, false) := by
  have h : ∀ (b : Bool) (md : MirrorData ℝ) (v : Vec3 ℝ),
      deformDelta Real.sqrt toWorld toLocal P b md v = none :=
    deformDelta_push_no_prev Real.sqrt toWorld toLocal P hP hprev
  unfold deformMesh deformAll
  cases mds with
  | nil => rfl
  | cons md rest =>
    simp only [deformMirrors_of_delta_none Real.sqrt toWorld toLocal P h]

/-- Witness for C8 at a concrete sample. -/
theorem c8_witness :
    deformMesh Real.sqrt id id
      ⟨Tool.push, 1, 1, false, none, ⟨0, 0, 0⟩, ⟨false, false, false⟩⟩
      [⟨⟨0, 0, 0⟩, ⟨0, 0, 1⟩⟩]
      ⟨[⟨1, 0, 0⟩], [(0, 0, 0)]⟩ =
    (⟨[⟨1, 0, 0⟩], [(0, 0, 0)]⟩, false) :=
  c8_push_without_history_is_noop id id _ _ _ rfl rfl

section FarLemmas

variable {K : Type} [LinearOrderedField K]

lemma deformPass_far_preserves (sq : K → K) (tw tl : Vec3 K → Vec3 K)
    (P : DeformParams K) (b : Bool) (md : MirrorData K)
    (vs : List (Vec3 K)) (i : ℕ) (v : Vec3 K)
    (hv : vs[i]? = some v)
    (hfar : ¬ sq (Vec3.distSq (tw v) md.point) < P.brushSize) :
    (deformPass sq tw tl P b md vs).1.length = vs.length ∧
    (deformPass sq tw tl P b md vs).1[i]? = some v := by
  unfold deformPass
  constructor
  · simp
  · rw [List.getElem?_map, hv]
    simp [deformDelta_far sq tw tl P b md v hfar]

lemma deformMirrors_far_preserves (sq : K → K) (tw tl : Vec3 K → Vec3 K)
    (P : DeformParams K) (i : ℕ) (v : Vec3 K) :
    ∀ (L : List (Bool × MirrorData K)) (vs : List (Vec3 K)) (flag : Bool),
      vs[i]? = some v →
      (∀ bm ∈ L, ¬ sq (Vec3.distSq (tw v) bm.2.point) < P.brushSize) →
      (deformMirrors sq tw tl P L (vs, flag)).1.length = vs.length ∧
      (deformMirrors sq tw tl P L (vs, flag)).1[i]? = some v := by
  intro L
  induction L with
  | nil =>
    intro vs flag hv _
    exact ⟨rfl, hv⟩
  | cons bm rest ih =>
    intro vs flag hv hfar
    obtain ⟨b, md⟩ := bm
    have h1 := deformPass_far_preserves sq tw tl P b md vs i v hv
      (hfar (b, md) (List.mem_cons_self _ _))
    have h2 := ih (deformPass sq tw tl P b md vs).1
      (flag || (deformPass sq tw tl P b md vs).2) h1.2
      (fun x hx => hfar x (List.mem_cons_of_mem _ hx))
    simp only [deformMirrors]
    exact ⟨h2.1.trans h1.1, h2.2⟩

end FarLemmas

/-- C10: the deformation pass never changes mesh topology and touches only
in-radius vertices: for every tool, every symmetry-expanded point set and
every world transform, the index buffer is returned unchanged, the vertex
count is unchanged, and a vertex whose world-space distance from every
brush point is at least the brush size keeps its exact position. -/
theorem c10_deform_touches_only_in_radius (toWorld toLocal : Vec3 ℝ → Vec3 ℝ)
    (P : DeformParams ℝ) (mds : List (MirrorData ℝ)) (m : Mesh ℝ)
    (i : ℕ) (v : Vec3 ℝ) (hv : m.vertices[i]? = some v)
    (hfar : ∀ md ∈ mds,
      P.brushSize ≤ Real.sqrt (Vec3.distSq (toWorld v) md.point)) :
    (deformMesh Real.sqrt toWorld toLocal P mds m).1.tris = m.tris ∧
    (deformMesh Real.sqrt toWorld toLocal P mds m).1.vertices.length =
      m.vertices.length ∧
    (deformMesh Real.sqrt toWorld toLocal P mds m).1.vertices[i]? = some v := by
  refine ⟨rfl, ?_⟩
  unfold deformMesh deformAll
  cases mds with
  | nil => exact ⟨rfl, hv⟩
  | cons md rest =>
    have key := deformMirrors_far_preserves Real.sqrt toWorld toLocal P i v
      ((true, md) :: rest.map (fun x => (false, x))) m.vertices false hv ?_
    · exact key
    · intro bm hbm
      rcases List.mem_cons.1 hbm with h | h
      · subst h
        exact not_lt.2 (hfar md (List.mem_cons_self _ _))
      · obtain ⟨md2, hmd2, hbm2⟩ := List.mem_map.1 h
        rw [← hbm2]
        exact not_lt.2 (hfar md2 (List.mem_cons_of_mem _ hmd2))

/-- Witness for C10 at a concrete sample: a vertex at distance 5 from the
single brush point with brush size 1 is untouched and the topology is
preserved. -/
theorem c10_witness :
    (deformMesh Real.sqrt id id
      (⟨Tool.add, 1, 1, false, none, ⟨0, 0, 0⟩, ⟨false, false, false⟩⟩ :
        DeformParams ℝ)
      [⟨⟨0, 0, 0⟩, ⟨0, 0, 1⟩⟩]
      ⟨[⟨5, 0, 0⟩], [(0, 0, 0)]⟩).1.tris = [(0, 0, 0)] ∧
    (deformMesh Real.sqrt id id
      (⟨Tool.add, 1, 1, false, none, ⟨0, 0, 0⟩, ⟨false, false, false⟩⟩ :
        DeformParams ℝ)
      [⟨⟨0, 0, 0⟩, ⟨0, 0, 1⟩⟩]
      ⟨[⟨5, 0, 0⟩], [(0, 0, 0)]⟩).1.vertices.length = 1 ∧
    (deformMesh Real.sqrt id id
      (⟨Tool.add, 1, 1, false, none, ⟨0, 0, 0⟩, ⟨false, false, false⟩⟩ :
        DeformParams ℝ)
      [⟨⟨0, 0, 0⟩, ⟨0, 0, 1⟩⟩]
      ⟨[⟨5, 0, 0⟩], [(0, 0, 0)]⟩).1.vertices[0]? = some ⟨5, 0, 0⟩ :=
  c10_deform_touches_only_in_radius id id _ _ _ 0 ⟨5, 0, 0⟩ rfl
    (by
      intro md hmd
      rcases List.mem_singleton.1 hmd with h
      subst h
      show (1 : ℝ) ≤ Real.sqrt (Vec3.distSq (id ⟨5, 0, 0⟩) ⟨0, 0, 0⟩)
      have h25 : Vec3.distSq (id (⟨5, 0, 0⟩ : Vec3 ℝ)) ⟨0, 0, 0⟩ = 5 ^ 2 := by
        simp [Vec3.distSq, Vec3.normSq, Vec3.dot, Vec3.sub_def]
        norm_num
      rw [h25, Real.sqrt_sq (by norm_num : (0:ℝ) ≤ 5)]
      norm_num)

section FalloffLemmas

variable {K : Type} [LinearOrderedField K]

lemma sq_ite_neg (c : Prop) [Decidable c] (m : K) :
    (if c then -m else m) ^ 2 = m ^ 2 := by
  split <;> ring

/-- The vertex-independent squared direction factor of one deformation
pass: squared norm of the (mirrored) normal for add and subtract, and of
the normalized drag direction scaled by the capped drag factor for push
(0 when the pass skips every vertex). -/
def passFactorSq (sq : K → K) (tw tl : Vec3 K → Vec3 K)
    (P : DeformParams K) (b : Bool) (md : MirrorData K) : K :=
  if P.tool = Tool.push then
    match P.prev with
    | none => 0
    | some prev =>
      let dir0 := if b then md.point - prev
        else pushMirrorDirection tw tl P prev md.point
      if sq (Vec3.normSq dir0) < 1 / 1000 then 0
      else (min (sq (Vec3.distSq P.primary prev) * 25) 5) ^ 2 *
        Vec3.normSq (Vec3.scale (1 / sq (Vec3.normSq dir0)) dir0)
  else Vec3.normSq md.normal

lemma passFactorSq_nonneg (sq : K → K) (tw tl : Vec3 K → Vec3 K)
    (P : DeformParams K) (b : Bool) (md : MirrorData K) :
    0 ≤ passFactorSq sq tw tl P b md := by
  unfold passFactorSq
  split
  · cases hp : P.prev with
    | none => exact le_refl (0 : K)
    | some prev =>
      dsimp only
      cases b with
      | true =>
        simp only [if_true]
        split
        · exact le_refl (0 : K)
        · apply mul_nonneg
          · exact sq_nonneg _
          · exact Vec3.normSq_nonneg _
      | false =>
        simp only [Bool.false_eq_true, if_false]
        split
        · exact le_refl (0 : K)
        · apply mul_nonneg
          · exact sq_nonneg _
          · exact Vec3.normSq_nonneg _
  · exact Vec3.normSq_nonneg _

/-- Closed form of the squared displacement of an in-radius vertex: the
squared strength (brush strength times the squared falloff times the
constant 0.2) times the pass direction factor. -/
lemma optNormSq_deformDelta_eq (sq : K → K) (tw tl : Vec3 K → Vec3 K)
    (P : DeformParams K) (b : Bool) (md : MirrorData K) (v : Vec3 K)
    (h : sq (Vec3.distSq (tw v) md.point) < P.brushSize) :
    optNormSq (deformDelta sq tw tl P b md v) =
      (P.brushStrength * (1 - sq (Vec3.distSq (tw v) md.point) / P.brushSize) *
        (1 - sq (Vec3.distSq (tw v) md.point) / P.brushSize) * (2 / 10)) ^ 2 *
        passFactorSq sq tw tl P b md := by
  simp only [deformDelta, passFactorSq]
  rw [if_pos h]
  by_cases hp : P.tool = Tool.push
  · rw [if_pos hp, if_pos hp]
    cases hprev : P.prev with
    | none => simp [optNormSq]
    | some prev =>
      dsimp only
      cases b with
      | true =>
        simp only [if_true]
        by_cases hsm : sq (Vec3.normSq (md.point - prev)) < 1 / 1000
        · rw [if_pos hsm, if_pos hsm]
          simp [optNormSq]
        · rw [if_neg hsm, if_neg hsm]
          simp only [optNormSq, Vec3.normSq_scale, sq_ite_neg]
          ring
      | false =>
        simp only [Bool.false_eq_true, if_false]
        by_cases hsm : sq (Vec3.normSq
            (pushMirrorDirection tw tl P prev md.point)) < 1 / 1000
        · rw [if_pos hsm, if_pos hsm]
          simp [optNormSq]
        · rw [if_neg hsm, if_neg hsm]
          simp only [optNormSq, Vec3.normSq_scale, sq_ite_neg]
          ring
  · rw [if_neg hp, if_neg hp]
    simp only [optNormSq, Vec3.normSq_scale, sq_ite_neg]

lemma strengthSq_le (s bs d : K) (hs : 0 ≤ s) (hbs : 0 < bs) (hd : 0 ≤ d)
    (hdb : d < bs) :
    (s * (1 - d / bs) * (1 - d / bs) * (2 / 10)) ^ 2 ≤
    (s * (1 - 0 / bs) * (1 - 0 / bs) * (2 / 10)) ^ 2 := by
  have hf1 : 0 ≤ 1 - d / bs := by
    have h1 : d / bs < 1 := (div_lt_one hbs).2 hdb
    linarith
  have hf2 : 1 - d / bs ≤ 1 := by
    have h2 : 0 ≤ d / bs := div_nonneg hd (le_of_lt hbs)
    linarith
  have h0 : 0 ≤ s * (1 - d / bs) * (1 - d / bs) * (2 / 10) := by
    have hc : (0:K) ≤ 2 / 10 := by norm_num
    exact mul_nonneg (mul_nonneg (mul_nonneg hs hf1) hf1) hc
  have hff : (1 - d / bs) * (1 - d / bs) ≤ 1 := by nlinarith
  have h1 : s * (1 - d / bs) * (1 - d / bs) * (2 / 10) ≤
      s * (1 - 0 / bs) * (1 - 0 / bs) * (2 / 10) := by
    rw [zero_div]
    calc s * (1 - d / bs) * (1 - d / bs) * (2 / 10)
        = s * ((1 - d / bs) * (1 - d / bs)) * (2 / 10) := by ring
      _ ≤ s * 1 * (2 / 10) := by
          apply mul_le_mul_of_nonneg_right _ (by norm_num : (0:K) ≤ 2 / 10)
          exact mul_le_mul_of_nonneg_left hff hs
      _ = s * (1 - 0) * (1 - 0) * (2 / 10) := by ring
  exact pow_le_pow_left₀ h0 h1 2

end FalloffLemmas

/-- C7: the displacement of one deformation pass follows the falloff
formula.  For every vertex: (1) a vertex at distance at least the brush
radius (in particular exactly the brush radius) receives no displacement;
(2) for the add tool the displacement is the mirrored normal scaled by
brushStrength times falloff squared times the constant 0.2, where falloff
is one minus distance over brush radius; (3) the subtract tool negates
it; (4) the push tool scales the normalized drag direction by the same
strength times the capped drag factor; and (5) for a nonnegative brush
strength a vertex at distance 0 from the pass point receives the maximum
squared displacement of any vertex in the pass. -/
theorem c7_falloff_displacement (toWorld toLocal : Vec3 ℝ → Vec3 ℝ)
    (P : DeformParams ℝ) (b : Bool) (md : MirrorData ℝ) :
    (∀ v : Vec3 ℝ,
      P.brushSize ≤ Real.sqrt (Vec3.distSq (toWorld v) md.point) →
      deformDelta Real.sqrt toWorld toLocal P b md v = none) ∧
    (∀ v : Vec3 ℝ,
      Real.sqrt (Vec3.distSq (toWorld v) md.point) < P.brushSize →
      P.tool = Tool.add → P.invert = false →
      deformDelta Real.sqrt toWorld toLocal P b md v =
        some (Vec3.scale
          (P.brushStrength *
            (1 - Real.sqrt (Vec3.distSq (toWorld v) md.point) / P.brushSize) *
            (1 - Real.sqrt (Vec3.distSq (toWorld v) md.point) / P.brushSize) *
            (2 / 10)) md.normal)) ∧
    (∀ v : Vec3 ℝ,
      Real.sqrt (Vec3.distSq (toWorld v) md.point) < P.brushSize →
      P.tool = Tool.subtract → P.invert = false →
      deformDelta Real.sqrt toWorld toLocal P b md v =
        some (Vec3.scale
          (-(P.brushStrength *
            (1 - Real.sqrt (Vec3.distSq (toWorld v) md.point) / P.brushSize) *
            (1 - Real.sqrt (Vec3.distSq (toWorld v) md.point) / P.brushSize) *
            (2 / 10))) md.normal)) ∧
    (∀ (v : Vec3 ℝ) (prev : Vec3 ℝ),
      Real.sqrt (Vec3.distSq (toWorld v) md.point) < P.brushSize →
      P.tool = Tool.push → P.prev = some prev → P.invert = false → b = true →
      ¬ Real.sqrt (Vec3.normSq (md.point - prev)) < 1 / 1000 →
      deformDelta Real.sqrt toWorld toLocal P b md v =
        some (Vec3.scale
          (P.brushStrength *
            (1 - Real.sqrt (Vec3.distSq (toWorld v) md.point) / P.brushSize) *
            (1 - Real.sqrt (Vec3.distSq (toWorld v) md.point) / P.brushSize) *
            (2 / 10) *
            min (Real.sqrt (Vec3.distSq P.primary prev) * 25) 5)
          (Vec3.scale (1 / Real.sqrt (Vec3.normSq (md.point - prev)))
            (md.point - prev)))) ∧
    (0 ≤ P.brushStrength → 0 < P.brushSize →
      ∀ v v0 : Vec3 ℝ, Vec3.distSq (toWorld v0) md.point = 0 →
        optNormSq (deformDelta Real.sqrt toWorld toLocal P b md v) ≤
        optNormSq (deformDelta Real.sqrt toWorld toLocal P b md v0)) := by
  refine ⟨?_, ?_, ?_, ?_, ?_⟩
  · intro v h
    exact deformDelta_far Real.sqrt toWorld toLocal P b md v (not_lt.2 h)
  · intro v h htool hinv
    simp only [deformDelta]
    rw [if_pos h]
    simp [htool, hinv]
  · intro v h htool hinv
    simp only [deformDelta]
    rw [if_pos h]
    simp [htool, hinv]
  · intro v prev h htool hprev hinv hb hbig
    simp only [deformDelta]
    rw [if_pos h]
    simp only [htool, hprev, hb, hinv, if_pos rfl, if_true]
    rw [if_neg hbig]
    simp
  · intro hs hbs v v0 h0
    have hd0 : Real.sqrt (Vec3.distSq (toWorld v0) md.point) = 0 := by
      rw [h0, Real.sqrt_zero]
    have hv0lt : Real.sqrt (Vec3.distSq (toWorld v0) md.point) <
        P.brushSize := by
      rw [hd0]; exact hbs
    rw [optNormSq_deformDelta_eq Real.sqrt toWorld toLocal P b md v0 hv0lt]
    by_cases hv : Real.sqrt (Vec3.distSq (toWorld v) md.point) < P.brushSize
    · rw [optNormSq_deformDelta_eq Real.sqrt toWorld toLocal P b md v hv]
      refine mul_le_mul_of_nonneg_right ?_
        (passFactorSq_nonneg Real.sqrt toWorld toLocal P b md)
      rw [hd0]
      exact strengthSq_le P.brushStrength P.brushSize _ hs hbs
        (Real.sqrt_nonneg _) hv
    · rw [deformDelta_far Real.sqrt toWorld toLocal P b md v hv]
      exact mul_nonneg (sq_nonneg _)
        (passFactorSq_nonneg Real.sqrt toWorld toLocal P b md)

/-- Witness for C7: at a concrete sample (identity transform, unit brush
at the origin, add tool), a vertex at distance exactly 1 is untouched and
the maximum-displacement comparison holds for the vertex at the brush
point. -/
theorem c7_witness :
    deformDelta Real.sqrt id id
      (⟨Tool.add, 1, 1, false, none, ⟨0, 0, 0⟩, ⟨false, false, false⟩⟩ :
        DeformParams ℝ)
      true ⟨⟨0, 0, 0⟩, ⟨0, 0, 1⟩⟩ ⟨1, 0, 0⟩ = none ∧
    optNormSq (deformDelta Real.sqrt id id
      (⟨Tool.add, 1, 1, false, none, ⟨0, 0, 0⟩, ⟨false, false, false⟩⟩ :
        DeformParams ℝ)
      true ⟨⟨0, 0, 0⟩, ⟨0, 0, 1⟩⟩ ⟨1 / 2, 0, 0⟩) ≤
    optNormSq (deformDelta Real.sqrt id id
      (⟨Tool.add, 1, 1, false, none, ⟨0, 0, 0⟩, ⟨false, false, false⟩⟩ :
        DeformParams ℝ)
      true ⟨⟨0, 0, 0⟩, ⟨0, 0, 1⟩⟩ ⟨0, 0, 0⟩) := by
  constructor
  · refine (c7_falloff_displacement id id _ true _).1 ⟨1, 0, 0⟩ ?_
    have h1 : Vec3.distSq (id (⟨1, 0, 0⟩ : Vec3 ℝ)) ⟨0, 0, 0⟩ = 1 ^ 2 := by
      simp [Vec3.distSq, Vec3.normSq, Vec3.dot, Vec3.sub_def]
    rw [h1, Real.sqrt_sq (by norm_num : (0:ℝ) ≤ 1)]
  · refine (c7_falloff_displacement id id _ true _).2.2.2.2 (by norm_num)
      (by norm_num) ⟨1 / 2, 0, 0⟩ ⟨0, 0, 0⟩ ?_
    simp [Vec3.distSq, Vec3.normSq, Vec3.dot, Vec3.sub_def]

/-- C9 counterexample: the stored push point survives a tool change.  A
push stroke stores a point; switching to the add tool, releasing the
pointer, and switching back to push leaves the stale point in place, so a
new push stroke does inherit drag history from the earlier stroke - the
claimed reset on tool change does not exist in the code. -/
theorem c9_counterexample_stale_point_survives_tool_change :
    (changeTool Tool.push (handleMouseUp (changeTool Tool.add
      (recordPushPoint (⟨1, 2, 3⟩ : Vec3 ℚ)
        ⟨Tool.push, none⟩)))).pushLast = some ⟨1, 2, 3⟩ := by
  rfl

/-- C9 amended: the stored push point is cleared on pointer release while
the current tool is push; a tool change never clears it (so a push stroke
that follows an intermediate tool switch can begin with stale drag
history, as the counterexample shows). -/
theorem c9_amended_reset_only_on_release_with_push (P : Type)
    (s : PushState P) (t : Tool) :
    (s.currentTool = Tool.push → (handleMouseUp s).pushLast = none) ∧
    (changeTool t s).pushLast = s.pushLast := by
  constructor
  · intro h
    simp [handleMouseUp, resetPushTool, h]
  · rfl

/-- Witness for the amended C9 theorem at a concrete state. -/
theorem c9_amended_witness :
    (handleMouseUp
      (⟨Tool.push, some (⟨1, 2, 3⟩ : Vec3 ℚ)⟩ : PushState (Vec3 ℚ))).pushLast
        = none ∧
    (changeTool Tool.add
      (⟨Tool.push, some (⟨1, 2, 3⟩ : Vec3 ℚ)⟩ : PushState (Vec3 ℚ))).pushLast
        = some ⟨1, 2, 3⟩ :=
  ⟨(c9_amended_reset_only_on_release_with_push (Vec3 ℚ)
      ⟨Tool.push, some ⟨1, 2, 3⟩⟩ Tool.add).1 rfl,
    (c9_amended_reset_only_on_release_with_push (Vec3 ℚ)
      ⟨Tool.push, some ⟨1, 2, 3⟩⟩ Tool.add).2⟩

/-! ## Consistency propagation (claim C3) -/

lemma mem_insertKey {S : List EKey} {e : EKey} (k : EKey) (h : e ∈ S) :
    e ∈ insertKey S k := by
  unfold insertKey
  split
  · exact h
  · exact List.mem_append_left _ h

lemma self_mem_insertKey (S : List EKey) (k : EKey) : k ∈ insertKey S k := by
  unfold insertKey
  split
  · assumption
  · exact List.mem_append_right _ (List.mem_singleton.2 rfl)

lemma subset_propStepTri (S0 A : List EKey) (t : Tri) :
    ∀ e ∈ A, e ∈ propStepTri S0 A t := by
  intro e he
  unfold propStepTri
  split
  · exact mem_insertKey _ (mem_insertKey _ (mem_insertKey _ he))
  · exact he

lemma subset_foldl_propStepTri (S0 : List EKey) (l : List Tri) :
    ∀ (A : List EKey), ∀ e ∈ A, e ∈ l.foldl (propStepTri S0) A := by
  induction l with
  | nil => intro A e he; exact he
  | cons t ts ih =>
    intro A e he
    exact ih (propStepTri S0 A t) e (subset_propStepTri S0 A t e he)

lemma mem_propStepTri_of_two (S0 A : List EKey) (t : Tri)
    (h2 : markedCount S0 t = 2) :
    ∀ e ∈ triEdges t, e ∈ propStepTri S0 A t := by
  intro e he
  unfold propStepTri
  rw [if_pos h2]
  simp only [triEdges, List.mem_cons, List.not_mem_nil, or_false] at he
  rcases he with he | he | he
  · rw [he]
    exact mem_insertKey _ (mem_insertKey _ (self_mem_insertKey _ _))
  · rw [he]
    exact mem_insertKey _ (self_mem_insertKey _ _)
  · rw [he]
    exact self_mem_insertKey _ _

lemma triEdges_subset_propStep (tris : List Tri) (S : List EKey) (t : Tri)
    (ht : t ∈ tris) (h2 : markedCount S t = 2) :
    ∀ e ∈ triEdges t, e ∈ propStep tris S := by
  unfold propStep
  have aux : ∀ (l : List Tri) (A : List EKey), t ∈ l →
      ∀ e ∈ triEdges t, e ∈ l.foldl (propStepTri S) A := by
    intro l
    induction l with
    | nil => intro A h; cases h
    | cons u us ih =>
      intro A hmem e he
      rcases List.mem_cons.1 hmem with h | h
      · subst h
        exact subset_foldl_propStepTri S us _ e
          (mem_propStepTri_of_two S A t h2 e he)
      · exact ih _ h e he
  exact aux tris S ht

lemma markedCount_le_three (S : List EKey) (t : Tri) : markedCount S t ≤ 3 :=
  le_trans (List.countP_le_length _) (by rfl)

lemma propStep_fixed_no_two (tris : List Tri) (S : List EKey)
    (hfix : propStep tris S = S) (t : Tri) (ht : t ∈ tris) :
    markedCount S t ≠ 2 := by
  intro h2
  have hex : ∃ e ∈ triEdges t, e ∉ S := by
    by_contra hall
    push_neg at hall
    have hlen : markedCount S t = 3 := by
      unfold markedCount
      have h3 : (triEdges t).length = 3 := rfl
      rw [← h3, List.countP_eq_length]
      intro e he
      exact decide_eq_true (hall e he)
    omega
  obtain ⟨e, he, hne⟩ := hex
  have hmem : e ∈ propStep tris S :=
    triEdges_subset_propStep tris S t ht h2 e he
  rw [hfix] at hmem
  exact hne hmem

/-- C3 counterexample: the 5-iteration cap of the consistency-propagation
loop can be exhausted before the fixed point is reached.  On this fan of
six triangles (each rim edge longer than twice the maximum edge length,
one long spoke, the subdivision point far away so only the over-length
clause marks edges), each iteration marks one further spoke, and after the
capped loop the triangle (0, 6, 7) of the mesh still has exactly 2 of its
3 edges marked - not 0, 1, or 3 as the claim states. -/
theorem c3_counterexample_cap_exhausted :
    markedCount
      (subdivMarked
        (⟨[⟨0, 0, 0⟩, ⟨10, 0, 0⟩, ⟨-2, 0, 0⟩, ⟨2, 0, 0⟩, ⟨-2, 0, 0⟩,
            ⟨2, 0, 0⟩, ⟨-2, 0, 0⟩, ⟨2, 0, 0⟩],
          [(0, 1, 2), (0, 2, 3), (0, 3, 4), (0, 4, 5), (0, 5, 6),
            (0, 6, 7)]⟩ : Mesh ℚ)
        ⟨1000, 0, 0⟩ 1 1)
      (0, 6, 7) = 2 := by
  with_unfolding_all decide

/-- C3 amended: when the propagation loop exits because an iteration
changed nothing (its result is a fixed point of `propStep`, rather than
the 5-iteration cap being exhausted), every triangle ends the pass with
0, 1, or 3 marked edges - never exactly 2. -/
theorem c3_amended_no_two_marked_at_fixpoint {K : Type}
    [LinearOrderedField K] (m : Mesh K) (point : Vec3 K)
    (radius maxEdgeLength : K)
    (hfix : propStep m.tris (subdivMarked m point radius maxEdgeLength) =
      subdivMarked m point radius maxEdgeLength) :
    ∀ t ∈ m.tris,
      markedCount (subdivMarked m point radius maxEdgeLength) t = 0 ∨
      markedCount (subdivMarked m point radius maxEdgeLength) t = 1 ∨
      markedCount (subdivMarked m point radius maxEdgeLength) t = 3 := by
  intro t ht
  have hne := propStep_fixed_no_two m.tris _ hfix t ht
  have hle := markedCount_le_three (subdivMarked m point radius maxEdgeLength) t
  omega

/-- Witness for the amended C3 theorem: on a small triangle whose edges
are all short, the propagation is at a fixed point and every triangle has
0, 1, or 3 (here 0) marked edges. -/
theorem c3_amended_witness :
    (propStep
        ([(0, 1, 2)] : List Tri)
        (subdivMarked
          (⟨[⟨0, 0, 0⟩, ⟨1/2, 0, 0⟩, ⟨0, 1/2, 0⟩], [(0, 1, 2)]⟩ : Mesh ℚ)
          ⟨0, 0, 0⟩ 1 1) =
      subdivMarked
        (⟨[⟨0, 0, 0⟩, ⟨1/2, 0, 0⟩, ⟨0, 1/2, 0⟩], [(0, 1, 2)]⟩ : Mesh ℚ)
        ⟨0, 0, 0⟩ 1 1) ∧
    (∀ t ∈ ([(0, 1, 2)] : List Tri),
      markedCount (subdivMarked
        (⟨[⟨0, 0, 0⟩, ⟨1/2, 0, 0⟩, ⟨0, 1/2, 0⟩], [(0, 1, 2)]⟩ : Mesh ℚ)
        ⟨0, 0, 0⟩ 1 1) t = 0 ∨
      markedCount (subdivMarked
        (⟨[⟨0, 0, 0⟩, ⟨1/2, 0, 0⟩, ⟨0, 1/2, 0⟩], [(0, 1, 2)]⟩ : Mesh ℚ)
        ⟨0, 0, 0⟩ 1 1) t = 1 ∨
      markedCount (subdivMarked
        (⟨[⟨0, 0, 0⟩, ⟨1/2, 0, 0⟩, ⟨0, 1/2, 0⟩], [(0, 1, 2)]⟩ : Mesh ℚ)
        ⟨0, 0, 0⟩ 1 1) t = 3) :=
  ⟨by with_unfolding_all decide,
    c3_amended_no_two_marked_at_fixpoint
      (⟨[⟨0, 0, 0⟩, ⟨1/2, 0, 0⟩, ⟨0, 1/2, 0⟩], [(0, 1, 2)]⟩ : Mesh ℚ)
      ⟨0, 0, 0⟩ 1 1 (by with_unfolding_all decide)⟩

/-! ## Monotonicity and conditional idempotence (claim C4) -/

section NoOp

variable {K : Type} [LinearOrderedField K]

lemma markTri_of_no_cond (vs : List (Vec3 K)) (point : Vec3 K)
    (radius maxEdgeLength : K) (S : List EKey) (t : Tri)
    (h1 : ¬ markCond vs point radius maxEdgeLength t.1 t.2.1)
    (h2 : ¬ markCond vs point radius maxEdgeLength t.2.1 t.2.2)
    (h3 : ¬ markCond vs point radius maxEdgeLength t.2.2 t.1) :
    markTri vs point radius maxEdgeLength S t = S := by
  simp only [markTri, if_neg h1, if_neg h2, if_neg h3]

lemma markEdges_eq_nil (vs : List (Vec3 K)) (point : Vec3 K)
    (radius maxEdgeLength : K) (tris : List Tri)
    (h : ∀ t ∈ tris,
      ¬ markCond vs point radius maxEdgeLength t.1 t.2.1 ∧
      ¬ markCond vs point radius maxEdgeLength t.2.1 t.2.2 ∧
      ¬ markCond vs point radius maxEdgeLength t.2.2 t.1) :
    markEdges vs point radius maxEdgeLength tris = [] := by
  unfold markEdges
  have aux : ∀ (l : List Tri) (S : List EKey),
      (∀ t ∈ l,
        ¬ markCond vs point radius maxEdgeLength t.1 t.2.1 ∧
        ¬ markCond vs point radius maxEdgeLength t.2.1 t.2.2 ∧
        ¬ markCond vs point radius maxEdgeLength t.2.2 t.1) →
      l.foldl (markTri vs point radius maxEdgeLength) S = S := by
    intro l
    induction l with
    | nil => intro S _; rfl
    | cons t ts ih =>
      intro S hl
      have ht := hl t (List.mem_cons_self _ _)
      simp only [List.foldl_cons,
        markTri_of_no_cond vs point radius maxEdgeLength S t ht.1 ht.2.1
          ht.2.2]
      exact ih S (fun u hu => hl u (List.mem_cons_of_mem _ hu))
  exact aux tris [] h

lemma propStep_nil (tris : List Tri) : propStep tris [] = [] := by
  unfold propStep
  have aux : ∀ l : List Tri, l.foldl (propStepTri []) [] = [] := by
    intro l
    induction l with
    | nil => rfl
    | cons t ts ih =>
      have h0 : markedCount ([] : List EKey) t = 0 := by
        simp [markedCount, triEdges]
      simp only [List.foldl_cons, propStepTri, h0]
      norm_num
      exact ih
  exact aux tris

lemma propagate_nil (tris : List Tri) (n : ℕ) : propagate tris n [] = [] := by
  cases n with
  | zero => rfl
  | succ k =>
    unfold propagate
    rw [propStep_nil]
    simp

lemma rebuildTri_nil (mid : EKey → ℕ) (t : Tri) :
    rebuildTri [] mid t = [t] := by
  simp [rebuildTri]

lemma flatMap_rebuildTri_nil (mid : EKey → ℕ) (l : List Tri) :
    l.flatMap (rebuildTri [] mid) = l := by
  induction l with
  | nil => rfl
  | cons t ts ih => simp [List.flatMap_cons, rebuildTri_nil, ih]

end NoOp

/-- C4 counterexample: the claimed idempotence fails.  On a single
triangle far from the subdivision point whose edges are all longer than
twice the maximum edge length, the first call fully subdivides it (6
vertices); the result has no edge whose midpoint lies within the radius
(the claimed precondition holds vacuously), yet the second call at the
same point with the same parameters subdivides again (15 vertices) because
the halved edges are still longer than twice the maximum edge length and
the over-length clause marks edges regardless of distance. -/
theorem c4_counterexample_second_call_changes_mesh :
    (∀ t ∈ (subdivideGeometryLocally Rat.sqrt
        (⟨[⟨6, 0, 0⟩, ⟨11, 0, 0⟩, ⟨19, 0, 0⟩], [(0, 1, 2)]⟩ : Mesh ℚ)
        ⟨0, 0, 0⟩ 1 1).tris,
      ∀ pr ∈ [(t.1, t.2.1), (t.2.1, t.2.2), (t.2.2, t.1)],
        distLT
          (edgeMid (subdivideGeometryLocally Rat.sqrt
            (⟨[⟨6, 0, 0⟩, ⟨11, 0, 0⟩, ⟨19, 0, 0⟩], [(0, 1, 2)]⟩ : Mesh ℚ)
            ⟨0, 0, 0⟩ 1 1).vertices pr.1 pr.2) ⟨0, 0, 0⟩ 1 →
        ¬ distGT
          (vtx (subdivideGeometryLocally Rat.sqrt
            (⟨[⟨6, 0, 0⟩, ⟨11, 0, 0⟩, ⟨19, 0, 0⟩], [(0, 1, 2)]⟩ : Mesh ℚ)
            ⟨0, 0, 0⟩ 1 1).vertices pr.1)
          (vtx (subdivideGeometryLocally Rat.sqrt
            (⟨[⟨6, 0, 0⟩, ⟨11, 0, 0⟩, ⟨19, 0, 0⟩], [(0, 1, 2)]⟩ : Mesh ℚ)
            ⟨0, 0, 0⟩ 1 1).vertices pr.2) 1) ∧
    (subdivideGeometryLocally Rat.sqrt
      (subdivideGeometryLocally Rat.sqrt
        (⟨[⟨6, 0, 0⟩, ⟨11, 0, 0⟩, ⟨19, 0, 0⟩], [(0, 1, 2)]⟩ : Mesh ℚ)
        ⟨0, 0, 0⟩ 1 1)
      ⟨0, 0, 0⟩ 1 1).vertices.length = 15 ∧
    (subdivideGeometryLocally Rat.sqrt
      (⟨[⟨6, 0, 0⟩, ⟨11, 0, 0⟩, ⟨19, 0, 0⟩], [(0, 1, 2)]⟩ : Mesh ℚ)
      ⟨0, 0, 0⟩ 1 1).vertices.length = 6 := by
  refine ⟨?_, ?_, ?_⟩ <;> with_unfolding_all decide

/-- C4 amended: subdivision is monotone - the output vertex count is at
least the input vertex count, for every mesh and parameters - and a call
on a mesh in which no edge is longer than twice the maximum edge length
and every edge whose midpoint lies within the radius is no longer than
the maximum edge length returns the mesh unchanged (so a second call is a
no-op when its input satisfies these conditions; the counterexample shows
the in-radius condition alone, as claimed, does not suffice). -/
theorem c4_amended_monotone_and_conditional_noop {K : Type}
    [LinearOrderedField K] (sq : K → K) (m : Mesh K) (point : Vec3 K)
    (radius maxEdgeLength : K) :
    m.vertices.length ≤
      (subdivideGeometryLocally sq m point radius maxEdgeLength).vertices.length ∧
    ((∀ t ∈ m.tris, ∀ pr ∈ [(t.1, t.2.1), (t.2.1, t.2.2), (t.2.2, t.1)],
        ¬ distGT (vtx m.vertices pr.1) (vtx m.vertices pr.2)
          (maxEdgeLength * 2) ∧
        (distLT (edgeMid m.vertices pr.1 pr.2) point radius →
          ¬ distGT (vtx m.vertices pr.1) (vtx m.vertices pr.2)
            maxEdgeLength)) →
      subdivideGeometryLocally sq m point radius maxEdgeLength = m) := by
  constructor
  · simp only [subdivideGeometryLocally, List.length_append]
    exact Nat.le_add_right _ _
  · intro hyp
    have hno : ∀ t ∈ m.tris,
        ¬ markCond m.vertices point radius maxEdgeLength t.1 t.2.1 ∧
        ¬ markCond m.vertices point radius maxEdgeLength t.2.1 t.2.2 ∧
        ¬ markCond m.vertices point radius maxEdgeLength t.2.2 t.1 := by
      intro t ht
      have h1 := hyp t ht (t.1, t.2.1) (by simp)
      have h2 := hyp t ht (t.2.1, t.2.2) (by simp)
      have h3 := hyp t ht (t.2.2, t.1) (by simp)
      refine ⟨?_, ?_, ?_⟩ <;>
        · rintro ⟨hgt, hlt | hgt2⟩
          · first
            | exact h1.2 hlt hgt
            | exact h2.2 hlt hgt
            | exact h3.2 hlt hgt
          · first
            | exact h1.1 hgt2
            | exact h2.1 hgt2
            | exact h3.1 hgt2
    have hS : subdivMarked m point radius maxEdgeLength = [] := by
      unfold subdivMarked
      rw [markEdges_eq_nil m.vertices point radius maxEdgeLength m.tris hno]
      exact propagate_nil m.tris 5
    obtain ⟨vs, ts⟩ := m
    simp only [subdivideGeometryLocally]
    rw [hS]
    simp only [List.map_nil, List.append_nil]
    rw [flatMap_rebuildTri_nil]

/-- Witness for the amended C4 theorem on a concrete short-edged
triangle. -/
theorem c4_amended_witness :
    (∀ t ∈ (⟨[⟨0, 0, 0⟩, ⟨1/2, 0, 0⟩, ⟨0, 1/2, 0⟩],
        [(0, 1, 2)]⟩ : Mesh ℚ).tris,
      ∀ pr ∈ [(t.1, t.2.1), (t.2.1, t.2.2), (t.2.2, t.1)],
        ¬ distGT
          (vtx ([⟨0, 0, 0⟩, ⟨1/2, 0, 0⟩, ⟨0, 1/2, 0⟩] : List (Vec3 ℚ)) pr.1)
          (vtx ([⟨0, 0, 0⟩, ⟨1/2, 0, 0⟩, ⟨0, 1/2, 0⟩] : List (Vec3 ℚ)) pr.2)
          ((1 : ℚ) * 2) ∧
        (distLT
            (edgeMid ([⟨0, 0, 0⟩, ⟨1/2, 0, 0⟩, ⟨0, 1/2, 0⟩] : List (Vec3 ℚ))
              pr.1 pr.2) ⟨0, 0, 0⟩ 1 →
          ¬ distGT
            (vtx ([⟨0, 0, 0⟩, ⟨1/2, 0, 0⟩, ⟨0, 1/2, 0⟩] : List (Vec3 ℚ)) pr.1)
            (vtx ([⟨0, 0, 0⟩, ⟨1/2, 0, 0⟩, ⟨0, 1/2, 0⟩] : List (Vec3 ℚ)) pr.2)
            1)) ∧
    subdivideGeometryLocally Rat.sqrt
      (⟨[⟨0, 0, 0⟩, ⟨1/2, 0, 0⟩, ⟨0, 1/2, 0⟩], [(0, 1, 2)]⟩ : Mesh ℚ)
      ⟨0, 0, 0⟩ 1 1 =
      ⟨[⟨0, 0, 0⟩, ⟨1/2, 0, 0⟩, ⟨0, 1/2, 0⟩], [(0, 1, 2)]⟩ :=
  ⟨by with_unfolding_all decide,
    (c4_amended_monotone_and_conditional_noop Rat.sqrt
      (⟨[⟨0, 0, 0⟩, ⟨1/2, 0, 0⟩, ⟨0, 1/2, 0⟩], [(0, 1, 2)]⟩ : Mesh ℚ)
      ⟨0, 0, 0⟩ 1 1).2 (by with_unfolding_all decide)⟩

/-! ## Watertightness transport (claim C1)

The central theorem: the rebuild step preserves the edge-occurrence
profile of the mesh.  The analysis decomposes the edges of each rebuilt
triangle into the kept original edges, the two halves of each marked
edge, and the interior edges (each of which appears exactly twice inside
one rebuilt triangle). -/

lemma edgeKey_fst (i j : ℕ) : (edgeKey i j).1 = min i j := by
  unfold edgeKey
  split <;> simp <;> omega

lemma edgeKey_snd (i j : ℕ) : (edgeKey i j).2 = max i j := by
  unfold edgeKey
  split <;> simp <;> omega

/-- Keys whose two components lie below `n` differ from keys with a
component at least `n`. -/
lemma edgeKey_ne_of_big {x y u m n : ℕ} (hx : x < n) (hy : y < n)
    (hm : n ≤ m) : edgeKey u m ≠ edgeKey x y := by
  intro h
  have h2 := congrArg Prod.snd h
  rw [edgeKey_snd, edgeKey_snd] at h2
  have hxy : max x y < n := by omega
  have hum : n ≤ max u m := le_trans hm (le_max_right u m)
  omega

lemma edgeKey_comp_cases {i j x y : ℕ} (h : edgeKey i j = edgeKey x y) :
    (i = x ∧ j = y) ∨ (i = y ∧ j = x) := by
  have h1 := congrArg Prod.fst h
  have h2 := congrArg Prod.snd h
  rw [edgeKey_fst, edgeKey_fst] at h1
  rw [edgeKey_snd, edgeKey_snd] at h2
  omega

lemma posOf_getD (junk : EKey) :
    ∀ (l : List EKey) (e : EKey), e ∈ l → l.getD (posOf l e) junk = e := by
  intro l
  induction l with
  | nil => intro e he; cases he
  | cons k ks ih =>
    intro e he
    by_cases hek : e = k
    · subst hek
      simp [posOf]
    · have hks : e ∈ ks := by
        rcases List.mem_cons.1 he with h | h
        · exact absurd h hek
        · exact h
      simp only [posOf, if_neg hek]
      simpa using ih e hks

lemma posOf_inj {l : List EKey} {e f : EKey} (he : e ∈ l) (hf : f ∈ l)
    (h : posOf l e = posOf l f) : e = f := by
  have h1 := posOf_getD (0, 0) l e he
  have h2 := posOf_getD (0, 0) l f hf
  rw [← h1, ← h2, h]

lemma cnt_filter (k : EKey) (p : EKey → Bool) (l : List EKey) :
    cnt k (l.filter p) = if p k then cnt k l else 0 := by
  induction l with
  | nil => simp [cnt]
  | cons e es ih =>
    by_cases hpe : p e
    · rw [List.filter_cons_of_pos hpe]
      by_cases hek : e = k
      · subst hek
        rw [if_pos hpe]
        simp only [cnt, ih, if_pos hpe]
      · simp only [cnt, if_neg hek, ih]
        split <;> omega
    · rw [List.filter_cons_of_neg hpe, ih]
      by_cases hpk : p k
      · rw [if_pos hpk, if_pos hpk]
        have hek : e ≠ k := fun h => hpe (h ▸ hpk)
        simp only [cnt, if_neg hek]
        omega
      · rw [if_neg hpk, if_neg hpk]

lemma mem_insertKey_elim {A : List EKey} {kk e : EKey}
    (he : e ∈ insertKey A kk) : e ∈ A ∨ e = kk := by
  unfold insertKey at he
  split at he
  · exact Or.inl he
  · rcases List.mem_append.1 he with h | h
    · exact Or.inl h
    · exact Or.inr (List.mem_singleton.1 h)

lemma mem_ite_insertKey {c : Prop} [Decidable c] {A : List EKey}
    {kk e : EKey} (he : e ∈ (if c then insertKey A kk else A)) :
    e ∈ A ∨ e = kk := by
  split at he
  · exact mem_insertKey_elim he
  · exact Or.inl he

/-- Every key inserted by the marking pass is an edge key of some
triangle of the list. -/
lemma mem_markEdges_src {K : Type} [LinearOrderedField K]
    (vs : List (Vec3 K)) (point : Vec3 K) (radius maxEdgeLength : K)
    (tris : List Tri) :
    ∀ e ∈ markEdges vs point radius maxEdgeLength tris,
      ∃ t ∈ tris, e ∈ triEdges t := by
  unfold markEdges
  have step : ∀ (A : List EKey) (t : Tri) (e : EKey),
      e ∈ markTri vs point radius maxEdgeLength A t →
      e ∈ A ∨ e ∈ triEdges t := by
    intro A t e he
    have he2 : e ∈ (if markCond vs point radius maxEdgeLength t.2.2 t.1 then
        insertKey (if markCond vs point radius maxEdgeLength t.2.1 t.2.2 then
          insertKey (if markCond vs point radius maxEdgeLength t.1 t.2.1 then
            insertKey A (edgeKey t.1 t.2.1) else A) (edgeKey t.2.1 t.2.2)
          else (if markCond vs point radius maxEdgeLength t.1 t.2.1 then
            insertKey A (edgeKey t.1 t.2.1) else A)) (edgeKey t.2.2 t.1)
        else (if markCond vs point radius maxEdgeLength t.2.1 t.2.2 then
          insertKey (if markCond vs point radius maxEdgeLength t.1 t.2.1 then
            insertKey A (edgeKey t.1 t.2.1) else A) (edgeKey t.2.1 t.2.2)
          else (if markCond vs point radius maxEdgeLength t.1 t.2.1 then
            insertKey A (edgeKey t.1 t.2.1) else A))) := he
    rcases mem_ite_insertKey he2 with h | h
    rotate_left
    · exact Or.inr (by rw [h]; simp [triEdges])
    rcases mem_ite_insertKey h with h2 | h2
    rotate_left
    · exact Or.inr (by rw [h2]; simp [triEdges])
    rcases mem_ite_insertKey h2 with h3 | h3
    · exact Or.inl h3
    · exact Or.inr (by rw [h3]; simp [triEdges])
  have aux : ∀ (l : List Tri), (∀ t ∈ l, t ∈ tris) → ∀ (A : List EKey),
      (∀ e ∈ A, ∃ t ∈ tris, e ∈ triEdges t) →
      ∀ e ∈ l.foldl (markTri vs point radius maxEdgeLength) A,
        ∃ t ∈ tris, e ∈ triEdges t := by
    intro l
    induction l with
    | nil => intro _ A hA e he; exact hA e he
    | cons t ts ih =>
      intro hl A hA e he
      simp only [List.foldl_cons] at he
      refine ih (fun u hu => hl u (List.mem_cons_of_mem _ hu)) _ ?_ e he
      intro e2 he2
      rcases step A t e2 he2 with h | h
      · exact hA e2 h
      · exact ⟨t, hl t (List.mem_cons_self _ _), h⟩
  intro e he
  exact aux tris (fun t ht => ht) [] (by intro e2 he2; cases he2) e he

/-- Every key in a propagation step comes from the set or is an edge key
of some triangle. -/
lemma mem_propStep_src (tris : List Tri) (S : List EKey) :
    ∀ e ∈ propStep tris S, e ∈ S ∨ ∃ t ∈ tris, e ∈ triEdges t := by
  unfold propStep
  have step : ∀ (A : List EKey) (t : Tri) (e : EKey),
      e ∈ propStepTri S A t → e ∈ A ∨ e ∈ triEdges t := by
    intro A t e he
    unfold propStepTri at he
    split at he
    · rcases mem_insertKey_elim he with h | h
      rotate_left
      · exact Or.inr (by rw [h]; simp [triEdges])
      rcases mem_insertKey_elim h with h2 | h2
      rotate_left
      · exact Or.inr (by rw [h2]; simp [triEdges])
      rcases mem_insertKey_elim h2 with h3 | h3
      · exact Or.inl h3
      · exact Or.inr (by rw [h3]; simp [triEdges])
    · exact Or.inl he
  have aux : ∀ (l : List Tri), (∀ t ∈ l, t ∈ tris) → ∀ (A : List EKey),
      (∀ e ∈ A, e ∈ S ∨ ∃ t ∈ tris, e ∈ triEdges t) →
      ∀ e ∈ l.foldl (propStepTri S) A,
        e ∈ S ∨ ∃ t ∈ tris, e ∈ triEdges t := by
    intro l
    induction l with
    | nil => intro _ A hA e he; exact hA e he
    | cons t ts ih =>
      intro hl A hA e he
      simp only [List.foldl_cons] at he
      refine ih (fun u hu => hl u (List.mem_cons_of_mem _ hu)) _ ?_ e he
      intro e2 he2
      rcases step A t e2 he2 with h | h
      · exact hA e2 h
      · exact Or.inr ⟨t, hl t (List.mem_cons_self _ _), h⟩
  intro e he
  exact aux tris (fun t ht => ht) S (fun e2 he2 => Or.inl he2) e he

lemma mem_propagate_src (tris : List Tri) :
    ∀ (n : ℕ) (S : List EKey),
      (∀ e ∈ S, ∃ t ∈ tris, e ∈ triEdges t) →
      ∀ e ∈ propagate tris n S, ∃ t ∈ tris, e ∈ triEdges t := by
  intro n
  induction n with
  | zero => intro S hS e he; exact hS e he
  | succ k ih =>
    intro S hS e he
    rw [propagate] at he
    by_cases hfix : propStep tris S = S
    · rw [if_pos hfix] at he
      exact hS e he
    · rw [if_neg hfix] at he
      refine ih (propStep tris S) ?_ e he
      intro e2 he2
      rcases mem_propStep_src tris S e2 he2 with h | h
      · exact hS e2 h
      · exact h

/-- Every marked key of the subdivision pipeline is an edge of some
triangle of the mesh. -/
lemma subdivMarked_src {K : Type} [LinearOrderedField K] (m : Mesh K)
    (point : Vec3 K) (radius maxEdgeLength : K) :
    ∀ e ∈ subdivMarked m point radius maxEdgeLength,
      ∃ t ∈ m.tris, e ∈ triEdges t := by
  intro e he
  exact mem_propagate_src m.tris 5 _
    (mem_markEdges_src m.vertices point radius maxEdgeLength m.tris) e he

lemma triEdges_comps_lt {t : Tri} {n : ℕ} (h1 : t.1 < n) (h2 : t.2.1 < n)
    (h3 : t.2.2 < n) {e : EKey} (he : e ∈ triEdges t) :
    e.1 < n ∧ e.2 < n := by
  simp only [triEdges, List.mem_cons, List.not_mem_nil, or_false] at he
  rcases he with he | he | he <;> subst he <;>
    exact ⟨by rw [edgeKey_fst]; omega, by rw [edgeKey_snd]; omega⟩

/-- The kept original edges of a rebuilt triangle: its unmarked edges, in
source order. -/
def asIsE (S : List EKey) (t : Tri) : List EKey :=
  (triEdges t).filter (fun e => !(decide (e ∈ S)))

/-- The halves of the marked edges of a rebuilt triangle: for each marked
edge, the two edges from its endpoints to its midpoint. -/
def halvesE (S : List EKey) (mid : EKey → ℕ) (t : Tri) : List EKey :=
  (if edgeKey t.1 t.2.1 ∈ S then
    [edgeKey t.1 (mid (edgeKey t.1 t.2.1)),
      edgeKey (mid (edgeKey t.1 t.2.1)) t.2.1] else []) ++
  (if edgeKey t.2.1 t.2.2 ∈ S then
    [edgeKey t.2.1 (mid (edgeKey t.2.1 t.2.2)),
      edgeKey (mid (edgeKey t.2.1 t.2.2)) t.2.2] else []) ++
  (if edgeKey t.2.2 t.1 ∈ S then
    [edgeKey t.2.2 (mid (edgeKey t.2.2 t.1)),
      edgeKey (mid (edgeKey t.2.2 t.1)) t.1] else [])

/-- The interior edges of a rebuilt triangle, per pattern; each appears
exactly twice among the edges of the replacement triangles. -/
def interiorE (S : List EKey) (mid : EKey → ℕ) (t : Tri) : List EKey :=
  let a := t.1
  let b := t.2.1
  let c := t.2.2
  let m1 := mid (edgeKey a b)
  let m2 := mid (edgeKey b c)
  let m3 := mid (edgeKey c a)
  match (decide (edgeKey a b ∈ S)), (decide (edgeKey b c ∈ S)),
      (decide (edgeKey c a ∈ S)) with
  | false, false, false => []
  | true, false, false => [edgeKey m1 c]
  | false, true, false => [edgeKey m2 a]
  | true, true, false => [edgeKey m1 c, edgeKey m1 m2]
  | false, false, true => [edgeKey b m3]
  | true, false, true => [edgeKey m1 m3, edgeKey m1 c]
  | false, true, true => [edgeKey m2 a, edgeKey m2 m3]
  | true, true, true => [edgeKey m1 m3, edgeKey m1 m2, edgeKey m2 m3]

/-- Per-triangle edge decomposition: the edge multiset of the replacement
of one triangle consists of its kept unmarked edges, one pair of halves
per marked edge, and each interior edge twice. -/
lemma rebuild_cnt (S : List EKey) (mid : EKey → ℕ) (t : Tri) (k : EKey) :
    cnt k ((rebuildTri S mid t).flatMap triEdges) =
      cnt k (asIsE S t) + cnt k (halvesE S mid t) +
        2 * cnt k (interiorE S mid t) := by
  obtain ⟨a, b, c⟩ := t
  by_cases h01 : edgeKey a b ∈ S <;> by_cases h12 : edgeKey b c ∈ S <;>
    by_cases h20 : edgeKey c a ∈ S <;>
      simp only [rebuildTri, interiorE, asIsE, halvesE, triEdges, h01, h12,
        h20, decide_eq_true_eq, List.filter, Bool.not_true, Bool.not_false,
        List.flatMap_cons, List.flatMap_nil, List.append_nil, if_true,
        if_false, not_false_iff, not_true, cnt_append, cnt]
  · rw [edgeKey_comm (mid (edgeKey b c)) (mid (edgeKey a b)),
      edgeKey_comm (mid (edgeKey c a)) (mid (edgeKey b c)),
      edgeKey_comm (mid (edgeKey c a)) (mid (edgeKey a b))]
    ring
  · rw [edgeKey_comm (mid (edgeKey b c)) (mid (edgeKey a b)),
      edgeKey_comm c (mid (edgeKey a b))]
    ring
  · rw [edgeKey_comm c (mid (edgeKey a b)),
      edgeKey_comm (mid (edgeKey c a)) (mid (edgeKey a b))]
    ring
  · rw [edgeKey_comm c (mid (edgeKey a b))]
    ring
  · rw [edgeKey_comm a (mid (edgeKey b c)),
      edgeKey_comm (mid (edgeKey c a)) (mid (edgeKey b c))]
    ring
  · rw [edgeKey_comm a (mid (edgeKey b c))]
    ring
  · rw [edgeKey_comm (mid (edgeKey c a)) b]
    ring
  · ring

/-! ### Vertex-support bookkeeping for the watertightness proof

Every vertex index of the subdivided mesh is either an original index
(below `n`) or a midpoint index (`n` plus the position of a marked key);
`srcVerts` recovers the original vertices behind an index and `keyVerts`
the original vertices behind an edge key.  Interior edges of a rebuilt
triangle are exactly the keys whose support is the full vertex set of the
triangle, which makes them private to that triangle when vertex sets are
pairwise distinct. -/

/-- The set of vertex indices of a triangle. -/
def triVertSet (t : Tri) : Finset ℕ :=
  {t.1, t.2.1, t.2.2}

/-- The original vertices behind one vertex index of the subdivided mesh:
an index below `n` is an original vertex, an index `n + p` is the midpoint
of the `p`-th marked key. -/
def srcVerts (n : ℕ) (S : List EKey) (c : ℕ) : Finset ℕ :=
  if c < n then {c} else {(S.getD (c - n) (0, 0)).1, (S.getD (c - n) (0, 0)).2}

/-- The original vertices behind both components of an edge key. -/
def keyVerts (n : ℕ) (S : List EKey) (k : EKey) : Finset ℕ :=
  srcVerts n S k.1 ∪ srcVerts n S k.2

lemma n_le_midIdx (n : ℕ) (S : List EKey) (e : EKey) : n ≤ midIdx n S e :=
  Nat.le_add_right n (posOf S e)

lemma midIdx_inj {n : ℕ} {S : List EKey} {e f : EKey} (he : e ∈ S)
    (hf : f ∈ S) (h : midIdx n S e = midIdx n S f) : e = f :=
  posOf_inj he hf (by unfold midIdx at h; omega)

lemma srcVerts_small {n : ℕ} (S : List EKey) {c : ℕ} (hc : c < n) :
    srcVerts n S c = {c} := by
  rw [srcVerts, if_pos hc]

lemma srcVerts_mid {n : ℕ} {S : List EKey} {e : EKey} (he : e ∈ S) :
    srcVerts n S (midIdx n S e) = {e.1, e.2} := by
  rw [srcVerts, if_neg (by have := n_le_midIdx n S e; omega)]
  have hp : midIdx n S e - n = posOf S e := by unfold midIdx; omega
  rw [hp, posOf_getD (0, 0) S e he]

/-- The unordered component pair of an edge key, as a finite set. -/
lemma edgeKey_pairFinset (i j : ℕ) :
    ({(edgeKey i j).1, (edgeKey i j).2} : Finset ℕ) = {i, j} := by
  rcases edgeKey_mem_pair i j with ⟨h1, h2⟩ | ⟨h1, h2⟩
  · rw [h1, h2]
  · rw [h1, h2, Finset.pair_comm]

lemma keyVerts_edgeKey (n : ℕ) (S : List EKey) (u v : ℕ) :
    keyVerts n S (edgeKey u v) = srcVerts n S u ∪ srcVerts n S v := by
  rcases edgeKey_mem_pair u v with ⟨h1, h2⟩ | ⟨h1, h2⟩
  · rw [keyVerts, h1, h2]
  · rw [keyVerts, h1, h2, Finset.union_comm]

/-- The components of every edge of a valid non-degenerate triangle are
ordered and in range. -/
lemma triEdges_facts {t : Tri} {n : ℕ}
    (hv : t.1 < n ∧ t.2.1 < n ∧ t.2.2 < n)
    (hd : t.1 ≠ t.2.1 ∧ t.2.1 ≠ t.2.2 ∧ t.2.2 ≠ t.1)
    {e : EKey} (he : e ∈ triEdges t) : e.1 < e.2 ∧ e.2 < n := by
  simp only [triEdges, List.mem_cons, List.not_mem_nil, or_false] at he
  rcases he with he | he | he <;> subst he <;>
    exact ⟨by rw [edgeKey_fst, edgeKey_snd]; omega,
      by rw [edgeKey_snd]; omega⟩

lemma cnt_le_one_single (k x : EKey) : cnt k [x] ≤ 1 := by
  simp only [cnt]
  split <;> omega

lemma cnt_le_one_pair {x y : EKey} (k : EKey) (hxy : x ≠ y) :
    cnt k [x, y] ≤ 1 := by
  simp only [cnt]
  by_cases hx : x = k
  · rw [if_pos hx, if_neg (by rw [hx] at hxy; exact fun h => hxy h.symm)]
  · rw [if_neg hx]
    split <;> omega

lemma cnt_le_one_triple {x y z : EKey} (k : EKey) (hxy : x ≠ y)
    (hxz : x ≠ z) (hyz : y ≠ z) : cnt k [x, y, z] ≤ 1 := by
  simp only [cnt]
  by_cases hx : x = k
  · rw [if_pos hx, if_neg (by rw [hx] at hxy; exact fun h => hxy h.symm),
      if_neg (by rw [hx] at hxz; exact fun h => hxz h.symm)]
  · rw [if_neg hx]
    by_cases hy : y = k
    · rw [if_pos hy, if_neg (by rw [hy] at hyz; exact fun h => hyz h.symm)]
    · rw [if_neg hy]
      split <;> omega

lemma edgeKey_ne_of_cases {i j x y : ℕ} (h1 : ¬(i = x ∧ j = y))
    (h2 : ¬(i = y ∧ j = x)) : edgeKey i j ≠ edgeKey x y := by
  intro h
  rcases edgeKey_comp_cases h with h3 | h3
  · exact h1 h3
  · exact h2 h3

lemma sum_map_two_mul {α : Type} (f : α → ℕ) (l : List α) :
    (l.map (fun t => 2 * f t)).sum = 2 * (l.map f).sum := by
  induction l with
  | nil => rfl
  | cons a as ih => simp [ih]; ring

lemma sum_le_one_of_excl {α : Type} (f : α → ℕ) :
    ∀ l : List α, (∀ t ∈ l, f t ≤ 1) →
      l.Pairwise (fun a b => f a = 0 ∨ f b = 0) → (l.map f).sum ≤ 1 := by
  intro l
  induction l with
  | nil => intro _ _; simp
  | cons a as ih =>
    intro hle hpw
    rw [List.pairwise_cons] at hpw
    by_cases ha : f a = 0
    · simp only [List.map_cons, List.sum_cons, ha, Nat.zero_add]
      exact ih (fun t ht => hle t (List.mem_cons_of_mem _ ht)) hpw.2
    · have htail : ∀ t ∈ as, f t = 0 := by
        intro t ht
        rcases hpw.1 t ht with h | h
        · exact absurd h ha
        · exact h
      have hsum : (as.map f).sum = 0 := by
        rw [List.sum_eq_zero_iff]
        intro x hx
        rcases List.mem_map.1 hx with ⟨t, ht, rfl⟩
        exact htail t ht
      simp only [List.map_cons, List.sum_cons, hsum]
      have := hle a (List.mem_cons_self _ _)
      omega

lemma pairwise_imp_mem {α : Type} {R S : α → α → Prop} :
    ∀ {l : List α}, l.Pairwise R →
      (∀ a ∈ l, ∀ b ∈ l, R a b → S a b) → l.Pairwise S := by
  intro l
  induction l with
  | nil => intro _ _; exact List.Pairwise.nil
  | cons a as ih =>
    intro hpw h
    rw [List.pairwise_cons] at hpw ⊢
    refine ⟨fun b hb => h a (List.mem_cons_self _ _) b
      (List.mem_cons_of_mem _ hb) (hpw.1 b hb), ?_⟩
    exact ih hpw.2 (fun x hx y hy => h x (List.mem_cons_of_mem _ hx) y
      (List.mem_cons_of_mem _ hy))

/-- The kept original edges of a triangle carry a key exactly as often as
the triangle itself does, unless the key is marked. -/
lemma asIs_cnt (S : List EKey) (t : Tri) (k : EKey) :
    cnt k (asIsE S t) = if k ∈ S then 0 else cnt k (triEdges t) := by
  rw [asIsE, cnt_filter]
  by_cases h : k ∈ S <;> simp [h]

lemma asIs_cnt_zero {S : List EKey} {t : Tri} {n : ℕ}
    (hv : t.1 < n ∧ t.2.1 < n ∧ t.2.2 < n) {k : EKey} (hk : n ≤ k.2) :
    cnt k (asIsE S t) = 0 := by
  apply cnt_eq_zero_of_forall
  intro e he
  have he2 : e ∈ triEdges t := List.mem_of_mem_filter he
  have := (triEdges_comps_lt hv.1 hv.2.1 hv.2.2 he2).2
  intro h
  rw [h] at this
  omega

/-- Every element of one guard block of `halvesE` joins an endpoint of a
marked key to that key's midpoint index. -/
lemma halves_block_shape {S : List EKey} {n : ℕ} {u v : ℕ} {e : EKey}
    (he : e ∈ (if edgeKey u v ∈ S then
      [edgeKey u (midIdx n S (edgeKey u v)),
        edgeKey (midIdx n S (edgeKey u v)) v] else [])) :
    ∃ f, f ∈ S ∧
      (e = edgeKey f.1 (midIdx n S f) ∨ e = edgeKey f.2 (midIdx n S f)) := by
  split at he
  · next h =>
    refine ⟨edgeKey u v, h, ?_⟩
    simp only [List.mem_cons, List.not_mem_nil, or_false] at he
    rcases edgeKey_mem_pair u v with ⟨h1, h2⟩ | ⟨h1, h2⟩ <;>
      rcases he with he | he
    · left; rw [he, h1]
    · right; rw [he, h2, edgeKey_comm]
    · right; rw [he, h2]
    · left; rw [he, h1, edgeKey_comm]
  · cases he

lemma halves_shape {S : List EKey} {n : ℕ} {t : Tri} {e : EKey}
    (he : e ∈ halvesE S (midIdx n S) t) :
    ∃ f, f ∈ S ∧
      (e = edgeKey f.1 (midIdx n S f) ∨ e = edgeKey f.2 (midIdx n S f)) := by
  simp only [halvesE, List.mem_append] at he
  rcases he with (he | he) | he <;> exact halves_block_shape he

lemma halves_cnt_zero_small {S : List EKey} {n : ℕ} {t : Tri} {k : EKey}
    (hk : k.2 < n) : cnt k (halvesE S (midIdx n S) t) = 0 := by
  apply cnt_eq_zero_of_forall
  intro e he
  rcases halves_shape he with ⟨f, _, hf | hf⟩ <;> intro h <;> rw [← h] at hk <;>
    rw [hf, edgeKey_snd] at hk <;>
    exact absurd hk (by have := n_le_midIdx n S f; omega)

lemma halves_cnt_zero_notshape {S : List EKey} {n : ℕ} {t : Tri} {k : EKey}
    (hk : ¬∃ f, f ∈ S ∧
      (k = edgeKey f.1 (midIdx n S f) ∨ k = edgeKey f.2 (midIdx n S f))) :
    cnt k (halvesE S (midIdx n S) t) = 0 := by
  apply cnt_eq_zero_of_forall
  intro e he h
  rw [h] at he
  exact hk (halves_shape he)

/-- One guard block of `halvesE` carries the half key `edgeKey x (mid e)`
exactly when the block's edge is `e` itself. -/
lemma halves_block_cnt {S : List EKey} {n : ℕ} {u v : ℕ} {e : EKey} {x : ℕ}
    (hu : u < n) (hv : v < n) (he : e ∈ S) (hx : x = e.1 ∨ x = e.2)
    (hxn : x < n) (hee : e.1 < e.2) :
    cnt (edgeKey x (midIdx n S e)) (if edgeKey u v ∈ S then
      [edgeKey u (midIdx n S (edgeKey u v)),
        edgeKey (midIdx n S (edgeKey u v)) v] else []) =
      if edgeKey u v = e then 1 else 0 := by
  by_cases hmem : edgeKey u v ∈ S
  · rw [if_pos hmem]
    have hun : u < midIdx n S (edgeKey u v) :=
      lt_of_lt_of_le hu (n_le_midIdx n S _)
    have hvn : v < midIdx n S (edgeKey u v) :=
      lt_of_lt_of_le hv (n_le_midIdx n S _)
    have hxe : x < midIdx n S e := lt_of_lt_of_le hxn (n_le_midIdx n S e)
    rw [edgeKey_of_lt hun, edgeKey_comm (midIdx n S (edgeKey u v)) v,
      edgeKey_of_lt hvn, edgeKey_of_lt hxe]
    by_cases heq : edgeKey u v = e
    · rw [if_pos heq]
      have hMM : midIdx n S (edgeKey u v) = midIdx n S e := by rw [heq]
      rw [hMM]
      have hcomp : (u = e.1 ∧ v = e.2) ∨ (u = e.2 ∧ v = e.1) := by
        have h2 : edgeKey u v = edgeKey e.1 e.2 := by
          rw [heq, edgeKey_of_lt hee]
        exact edgeKey_comp_cases h2
      simp only [cnt, Prod.mk.injEq, and_true]
      rcases hcomp with ⟨h1, h2⟩ | ⟨h1, h2⟩ <;> rcases hx with hx | hx <;>
        subst h1 <;> subst h2 <;> subst hx <;> split <;> split <;> omega
    · rw [if_neg heq]
      have hne : midIdx n S (edgeKey u v) ≠ midIdx n S e :=
        fun h => heq (midIdx_inj hmem he h)
      simp only [cnt, Prod.mk.injEq]
      rw [if_neg (fun h => hne h.2), if_neg (fun h => hne h.2)]
  · rw [if_neg hmem]
    rw [if_neg (fun h : edgeKey u v = e => hmem (by rw [h]; exact he))]
    rfl

/-- The halves of a triangle's marked edges carry the half key
`edgeKey x (mid e)` exactly as often as the triangle carries `e`. -/
lemma halves_cnt {S : List EKey} {n : ℕ} {t : Tri} {e : EKey} {x : ℕ}
    (hv : t.1 < n ∧ t.2.1 < n ∧ t.2.2 < n) (he : e ∈ S)
    (hx : x = e.1 ∨ x = e.2) (hee : e.1 < e.2) (hen : e.2 < n) :
    cnt (edgeKey x (midIdx n S e)) (halvesE S (midIdx n S) t) =
      cnt e (triEdges t) := by
  have hxn : x < n := by rcases hx with hx | hx <;> omega
  have h1 := halves_block_cnt hv.1 hv.2.1 he hx hxn hee
  have h2 := halves_block_cnt hv.2.1 hv.2.2 he hx hxn hee
  have h3 := halves_block_cnt hv.2.2 hv.1 he hx hxn hee
  rw [halvesE, cnt_append, cnt_append, h1, h2, h3]
  simp only [triEdges, cnt]
  by_cases hc1 : edgeKey t.1 t.2.1 = e <;>
    by_cases hc2 : edgeKey t.2.1 t.2.2 = e <;>
      by_cases hc3 : edgeKey t.2.2 t.1 = e <;> simp [hc1, hc2, hc3]

/-- The interior edges of one rebuilt triangle are pairwise distinct, so
no key is carried more than once by `interiorE`. -/
lemma interior_cnt_le_one {S : List EKey} {n : ℕ} {t : Tri} (k : EKey)
    (hv : t.1 < n ∧ t.2.1 < n ∧ t.2.2 < n)
    (hd : t.1 ≠ t.2.1 ∧ t.2.1 ≠ t.2.2 ∧ t.2.2 ≠ t.1) :
    cnt k (interiorE S (midIdx n S) t) ≤ 1 := by
  obtain ⟨a, b, c⟩ := t
  have ha : a < n := hv.1
  have hb : b < n := hv.2.1
  have hc : c < n := hv.2.2
  have hab : a ≠ b := hd.1
  have hbc : b ≠ c := hd.2.1
  have hca : c ≠ a := hd.2.2
  have hn1 := n_le_midIdx n S (edgeKey a b)
  have hn2 := n_le_midIdx n S (edgeKey b c)
  have hn3 := n_le_midIdx n S (edgeKey c a)
  have he12 : edgeKey a b ≠ edgeKey b c :=
    edgeKey_ne_of_cases (fun h => hab h.1) (fun h => hca h.1.symm)
  have he13 : edgeKey a b ≠ edgeKey c a :=
    edgeKey_ne_of_cases (fun h => hca h.1.symm) (fun h => hbc h.2)
  have he23 : edgeKey b c ≠ edgeKey c a :=
    edgeKey_ne_of_cases (fun h => hbc h.1) (fun h => hab h.1.symm)
  by_cases h01 : edgeKey a b ∈ S <;> by_cases h12 : edgeKey b c ∈ S <;>
    by_cases h20 : edgeKey c a ∈ S <;>
      simp only [interiorE, h01, h12, h20, decide_eq_true_eq, if_true,
        if_false, not_false_iff, not_true]
  · have hm12 : midIdx n S (edgeKey a b) ≠ midIdx n S (edgeKey b c) :=
      fun h => he12 (midIdx_inj h01 h12 h)
    have hm13 : midIdx n S (edgeKey a b) ≠ midIdx n S (edgeKey c a) :=
      fun h => he13 (midIdx_inj h01 h20 h)
    have hm23 : midIdx n S (edgeKey b c) ≠ midIdx n S (edgeKey c a) :=
      fun h => he23 (midIdx_inj h12 h20 h)
    exact cnt_le_one_triple k
      (edgeKey_ne_of_cases (fun h => hm23 h.2.symm) (fun h => hm12 h.1))
      (edgeKey_ne_of_cases (fun h => hm12 h.1) (fun h => hm13 h.1))
      (edgeKey_ne_of_cases (fun h => hm12 h.1) (fun h => hm13 h.1))
  · exact cnt_le_one_pair k (edgeKey_ne_of_cases
      (by rintro ⟨h1, h2⟩; omega) (by rintro ⟨h1, h2⟩; omega))
  · exact cnt_le_one_pair k (edgeKey_ne_of_cases
      (by rintro ⟨h1, h2⟩; omega) (by rintro ⟨h1, h2⟩; omega))
  · exact cnt_le_one_single k _
  · exact cnt_le_one_pair k (edgeKey_ne_of_cases
      (by rintro ⟨h1, h2⟩; omega) (by rintro ⟨h1, h2⟩; omega))
  · exact cnt_le_one_single k _
  · exact cnt_le_one_single k _
  · exact Nat.zero_le 1

/-- Every interior edge of a rebuilt triangle has a midpoint component and
its original-vertex support is exactly the triangle's vertex set. -/
lemma interior_mem {S : List EKey} {n : ℕ} {t : Tri}
    (hv : t.1 < n ∧ t.2.1 < n ∧ t.2.2 < n) {e : EKey}
    (he : e ∈ interiorE S (midIdx n S) t) :
    n ≤ e.2 ∧ keyVerts n S e = triVertSet t := by
  obtain ⟨a, b, c⟩ := t
  have ha : a < n := hv.1
  have hb : b < n := hv.2.1
  have hc : c < n := hv.2.2
  have hn1 := n_le_midIdx n S (edgeKey a b)
  have hn2 := n_le_midIdx n S (edgeKey b c)
  have hn3 := n_le_midIdx n S (edgeKey c a)
  by_cases h01 : edgeKey a b ∈ S <;> by_cases h12 : edgeKey b c ∈ S <;>
    by_cases h20 : edgeKey c a ∈ S <;>
      simp only [interiorE, h01, h12, h20, decide_eq_true_eq, decide_True,
        decide_False, eq_self_iff_true, if_true, if_false, not_false_iff,
        not_true, List.mem_cons, List.not_mem_nil, or_false] at he
  · rcases he with rfl | rfl | rfl
    · exact ⟨by rw [edgeKey_snd]; omega, by
        rw [keyVerts_edgeKey]
        simp only [srcVerts_mid h01, srcVerts_mid h20, edgeKey_pairFinset]
        ext x; simp only [triVertSet, Finset.mem_union,
          Finset.mem_insert, Finset.mem_singleton]; tauto⟩
    · exact ⟨by rw [edgeKey_snd]; omega, by
        rw [keyVerts_edgeKey]
        simp only [srcVerts_mid h01, srcVerts_mid h12, edgeKey_pairFinset]
        ext x; simp only [triVertSet, Finset.mem_union,
          Finset.mem_insert, Finset.mem_singleton]; tauto⟩
    · exact ⟨by rw [edgeKey_snd]; omega, by
        rw [keyVerts_edgeKey]
        simp only [srcVerts_mid h12, srcVerts_mid h20, edgeKey_pairFinset]
        ext x; simp only [triVertSet, Finset.mem_union,
          Finset.mem_insert, Finset.mem_singleton]; tauto⟩
  · rcases he with rfl | rfl
    · exact ⟨by rw [edgeKey_snd]; omega, by
        rw [keyVerts_edgeKey]
        simp only [srcVerts_mid h01, srcVerts_small S hc, edgeKey_pairFinset]
        ext x; simp only [triVertSet, Finset.mem_union,
          Finset.mem_insert, Finset.mem_singleton]; tauto⟩
    · exact ⟨by rw [edgeKey_snd]; omega, by
        rw [keyVerts_edgeKey]
        simp only [srcVerts_mid h01, srcVerts_mid h12, edgeKey_pairFinset]
        ext x; simp only [triVertSet, Finset.mem_union,
          Finset.mem_insert, Finset.mem_singleton]; tauto⟩
  · rcases he with rfl | rfl
    · exact ⟨by rw [edgeKey_snd]; omega, by
        rw [keyVerts_edgeKey]
        simp only [srcVerts_mid h01, srcVerts_mid h20, edgeKey_pairFinset]
        ext x; simp only [triVertSet, Finset.mem_union,
          Finset.mem_insert, Finset.mem_singleton]; tauto⟩
    · exact ⟨by rw [edgeKey_snd]; omega, by
        rw [keyVerts_edgeKey]
        simp only [srcVerts_mid h01, srcVerts_small S hc, edgeKey_pairFinset]
        ext x; simp only [triVertSet, Finset.mem_union,
          Finset.mem_insert, Finset.mem_singleton]; tauto⟩
  · rcases he with rfl
    exact ⟨by rw [edgeKey_snd]; omega, by
      rw [keyVerts_edgeKey]
      simp only [srcVerts_mid h01, srcVerts_small S hc, edgeKey_pairFinset]
      ext x; simp only [triVertSet, Finset.mem_union,
          Finset.mem_insert, Finset.mem_singleton]; tauto⟩
  · rcases he with rfl | rfl
    · exact ⟨by rw [edgeKey_snd]; omega, by
        rw [keyVerts_edgeKey]
        simp only [srcVerts_mid h12, srcVerts_small S ha, edgeKey_pairFinset]
        ext x; simp only [triVertSet, Finset.mem_union,
          Finset.mem_insert, Finset.mem_singleton]; tauto⟩
    · exact ⟨by rw [edgeKey_snd]; omega, by
        rw [keyVerts_edgeKey]
        simp only [srcVerts_mid h12, srcVerts_mid h20, edgeKey_pairFinset]
        ext x; simp only [triVertSet, Finset.mem_union,
          Finset.mem_insert, Finset.mem_singleton]; tauto⟩
  · rcases he with rfl
    exact ⟨by rw [edgeKey_snd]; omega, by
      rw [keyVerts_edgeKey]
      simp only [srcVerts_mid h12, srcVerts_small S ha, edgeKey_pairFinset]
      ext x; simp only [triVertSet, Finset.mem_union,
          Finset.mem_insert, Finset.mem_singleton]; tauto⟩
  · rcases he with rfl
    exact ⟨by rw [edgeKey_snd]; omega, by
      rw [keyVerts_edgeKey]
      simp only [srcVerts_small S hb, srcVerts_mid h20, edgeKey_pairFinset]
      ext x; simp only [triVertSet, Finset.mem_union,
          Finset.mem_insert, Finset.mem_singleton]; tauto⟩

lemma triVertSet_card {t : Tri}
    (hd : t.1 ≠ t.2.1 ∧ t.2.1 ≠ t.2.2 ∧ t.2.2 ≠ t.1) :
    (triVertSet t).card = 3 := by
  obtain ⟨a, b, c⟩ := t
  rw [triVertSet, Finset.card_insert_of_not_mem (by
      simp only [Finset.mem_insert, Finset.mem_singleton]
      rintro (h | h)
      · exact hd.1 h
      · exact hd.2.2 h.symm),
    Finset.card_insert_of_not_mem
      (by simp only [Finset.mem_singleton]; exact hd.2.1),
    Finset.card_singleton]

/-- A half key (endpoint to midpoint of a marked edge) is never an
interior edge of a rebuilt non-degenerate triangle. -/
lemma interior_cnt_zero_halfshape {S : List EKey} {n : ℕ} {t : Tri}
    {e : EKey} {x : ℕ}
    (hv : t.1 < n ∧ t.2.1 < n ∧ t.2.2 < n)
    (hd : t.1 ≠ t.2.1 ∧ t.2.1 ≠ t.2.2 ∧ t.2.2 ≠ t.1)
    (he : e ∈ S) (hx : x = e.1 ∨ x = e.2) (hxn : x < n) :
    cnt (edgeKey x (midIdx n S e)) (interiorE S (midIdx n S) t) = 0 := by
  apply cnt_eq_zero_of_forall
  intro f hf h
  rw [h] at hf
  have hchar := (interior_mem hv hf).2
  rw [keyVerts_edgeKey, srcVerts_small S hxn, srcVerts_mid he] at hchar
  have hsub : ({x} ∪ {e.1, e.2} : Finset ℕ) = insert e.1 {e.2} := by
    ext y
    simp only [Finset.mem_union, Finset.mem_insert, Finset.mem_singleton]
    rcases hx with rfl | rfl <;> constructor <;> intro hy <;> tauto
  rw [hsub] at hchar
  have hcard : (insert e.1 ({e.2} : Finset ℕ)).card ≤ 2 :=
    le_trans (Finset.card_insert_le _ _) (by rw [Finset.card_singleton])
  rw [hchar, triVertSet_card hd] at hcard
  omega

/-- Summed form of the per-triangle decomposition `rebuild_cnt` over a
whole triangle list. -/
lemma edgeCount_rebuild (S : List EKey) (mid : EKey → ℕ) (k : EKey) :
    ∀ tris : List Tri,
      edgeCount (tris.flatMap (rebuildTri S mid)) k =
        (tris.map (fun t => cnt k (asIsE S t) + cnt k (halvesE S mid t) +
          2 * cnt k (interiorE S mid t))).sum := by
  intro tris
  induction tris with
  | nil => rfl
  | cons t ts ih =>
    unfold edgeCount at ih ⊢
    rw [List.flatMap_cons, List.flatMap_append, cnt_append, ih,
      rebuild_cnt, List.map_cons, List.sum_cons]

lemma sum_map_zero {α : Type} (l : List α) :
    (l.map (fun _ => (0 : ℕ))).sum = 0 := by
  induction l with
  | nil => rfl
  | cons a as ih => simp [ih]

lemma interior_cnt_zero_small {S : List EKey} {n : ℕ} {t : Tri} {k : EKey}
    (hv : t.1 < n ∧ t.2.1 < n ∧ t.2.2 < n) (hk : k.2 < n) :
    cnt k (interiorE S (midIdx n S) t) = 0 := by
  apply cnt_eq_zero_of_forall
  intro e he h
  have := (interior_mem hv he).1
  rw [h] at this
  omega

/-- The per-key edge-count transfer of the rebuild step: provided the
marked keys are edges of the triangle list, vertex indices are in range,
triangles are non-degenerate and no two triangles share their vertex set,
every key of the rebuilt triangle list is counted either exactly twice
(interior edges of one subdivided triangle) or exactly as often as some
source key of the input (kept edges count as themselves, halves of a
marked edge count as the marked edge). -/
lemma rebuild_outCnt_core (n : ℕ) (S : List EKey) (tris : List Tri)
    (hSsrc : ∀ e ∈ S, ∃ t ∈ tris, e ∈ triEdges t)
    (hVn : ∀ t ∈ tris, t.1 < n ∧ t.2.1 < n ∧ t.2.2 < n)
    (hD : ∀ t ∈ tris, t.1 ≠ t.2.1 ∧ t.2.1 ≠ t.2.2 ∧ t.2.2 ≠ t.1)
    (hP : tris.Pairwise (fun t1 t2 => triVertSet t1 ≠ triVertSet t2)) :
    ∀ k ∈ (tris.flatMap (rebuildTri S (midIdx n S))).flatMap triEdges,
      edgeCount (tris.flatMap (rebuildTri S (midIdx n S))) k = 2 ∨
        ∃ j ∈ tris.flatMap triEdges,
          edgeCount (tris.flatMap (rebuildTri S (midIdx n S))) k =
            edgeCount tris j := by
  intro k hk
  have hpos : 0 < edgeCount (tris.flatMap (rebuildTri S (midIdx n S))) k := by
    unfold edgeCount
    exact cnt_pos_iff_mem.2 hk
  have hsum := edgeCount_rebuild S (midIdx n S) k tris
  have hSgood : ∀ e ∈ S, e.1 < e.2 ∧ e.2 < n := by
    intro e he
    obtain ⟨t, ht, het⟩ := hSsrc e he
    exact triEdges_facts (hVn t ht) (hD t ht) het
  rcases Nat.lt_or_ge k.2 n with hk2 | hk2
  · -- no component of `k` is a midpoint index: only kept edges count
    have hform : ∀ t ∈ tris,
        cnt k (asIsE S t) + cnt k (halvesE S (midIdx n S) t) +
          2 * cnt k (interiorE S (midIdx n S) t) =
        if k ∈ S then 0 else cnt k (triEdges t) := by
      intro t ht
      rw [asIs_cnt, halves_cnt_zero_small hk2,
        interior_cnt_zero_small (hVn t ht) hk2]
      split <;> omega
    rw [List.map_congr_left hform] at hsum
    by_cases hkS : k ∈ S
    · exfalso
      simp only [if_pos hkS] at hsum
      rw [sum_map_zero] at hsum
      rw [hsum] at hpos
      exact absurd hpos (lt_irrefl 0)
    · simp only [if_neg hkS] at hsum
      rw [← cnt_flatMap] at hsum
      rw [hsum] at hpos
      right
      exact ⟨k, cnt_pos_iff_mem.1 hpos, by rw [hsum]; rfl⟩
  · by_cases hhalf : ∃ f, f ∈ S ∧
        (k = edgeKey f.1 (midIdx n S f) ∨ k = edgeKey f.2 (midIdx n S f))
    · -- `k` is one half of a marked edge `e`: it counts as `e` did
      obtain ⟨e, heS, hke⟩ := hhalf
      obtain ⟨hee, hen⟩ := hSgood e heS
      obtain ⟨x, hx, hkx⟩ :
          ∃ x, (x = e.1 ∨ x = e.2) ∧ k = edgeKey x (midIdx n S e) := by
        rcases hke with h | h
        · exact ⟨e.1, Or.inl rfl, h⟩
        · exact ⟨e.2, Or.inr rfl, h⟩
      subst hkx
      have hxn : x < n := by rcases hx with h | h <;> omega
      have hform : ∀ t ∈ tris,
          cnt (edgeKey x (midIdx n S e)) (asIsE S t) +
            cnt (edgeKey x (midIdx n S e)) (halvesE S (midIdx n S) t) +
            2 * cnt (edgeKey x (midIdx n S e))
              (interiorE S (midIdx n S) t) = cnt e (triEdges t) := by
        intro t ht
        rw [asIs_cnt_zero (hVn t ht) hk2,
          halves_cnt (hVn t ht) heS hx hee hen,
          interior_cnt_zero_halfshape (hVn t ht) (hD t ht) heS hx hxn]
        omega
      rw [List.map_congr_left hform, ← cnt_flatMap] at hsum
      obtain ⟨t0, ht0, het0⟩ := hSsrc e heS
      right
      exact ⟨e, List.mem_flatMap.2 ⟨t0, ht0, het0⟩, by rw [hsum]; rfl⟩
    · -- `k` is an interior edge: it lives in exactly one rebuilt triangle
      left
      have hform : ∀ t ∈ tris,
          cnt k (asIsE S t) + cnt k (halvesE S (midIdx n S) t) +
            2 * cnt k (interiorE S (midIdx n S) t) =
          2 * cnt k (interiorE S (midIdx n S) t) := by
        intro t ht
        rw [asIs_cnt_zero (hVn t ht) hk2, halves_cnt_zero_notshape hhalf]
        omega
      rw [List.map_congr_left hform, sum_map_two_mul] at hsum
      have hIle :
          (tris.map (fun t => cnt k (interiorE S (midIdx n S) t))).sum ≤ 1 := by
        apply sum_le_one_of_excl
        · intro t ht
          exact interior_cnt_le_one k (hVn t ht) (hD t ht)
        · refine pairwise_imp_mem hP ?_
          intro t1 h1 t2 h2 hne
          by_cases hz : cnt k (interiorE S (midIdx n S) t1) = 0
          · exact Or.inl hz
          · right
            by_contra hz2
            have hm1 := cnt_pos_iff_mem.1 (Nat.pos_of_ne_zero hz)
            have hm2 := cnt_pos_iff_mem.1 (Nat.pos_of_ne_zero hz2)
            exact hne (by rw [← (interior_mem (hVn t1 h1) hm1).2,
              ← (interior_mem (hVn t2 h2) hm2).2])
      rw [hsum] at hpos ⊢
      omega

/-- C1 counterexample: watertightness is not preserved for every closed
input mesh.  Two triangles over the same three vertices with opposite
winding form a mesh in which every edge lies in exactly 2 triangles (the
claim's notion of closed).  Subdividing near the midpoint of the long
shared edge marks that edge in both triangles, and each copy is split
into two triangles sharing the new interior edge (2, 3); that edge then
appears in 4 triangles of the output, not 2. -/
theorem c1_counterexample_doubled_triangle :
    (∀ j ∈ (([(0, 1, 2), (1, 0, 2)] : List Tri).flatMap triEdges),
      edgeCount [(0, 1, 2), (1, 0, 2)] j = 2) ∧
    (2, 3) ∈ (subdivideGeometryLocally Rat.sqrt
      (⟨[⟨0, 0, 0⟩, ⟨3/2, 0, 0⟩, ⟨3/4, 1/10, 0⟩],
        [(0, 1, 2), (1, 0, 2)]⟩ : Mesh ℚ)
      ⟨3/4, 0, 0⟩ (1/5) 1).tris.flatMap triEdges ∧
    edgeCount (subdivideGeometryLocally Rat.sqrt
      (⟨[⟨0, 0, 0⟩, ⟨3/2, 0, 0⟩, ⟨3/4, 1/10, 0⟩],
        [(0, 1, 2), (1, 0, 2)]⟩ : Mesh ℚ)
      ⟨3/4, 0, 0⟩ (1/5) 1).tris (2, 3) = 4 := by
  refine ⟨?_, ?_, ?_⟩ <;> with_unfolding_all decide

/-- C1 amended: for meshes whose triangles have in-range, pairwise
distinct vertex indices and whose triangles have pairwise distinct vertex
sets, `subdivideGeometryLocally` preserves edge-count profiles: if the
input is closed (every edge key of its triangle list occurs in exactly 2
triangles), every edge key of the output triangle list occurs in exactly
2 of its triangles - for every point, radius, maximum edge length and
square-root function; and if every input edge occurs in 1 or 2 triangles
(a mesh with boundary), every output edge occurs in 1 or 2 triangles
(boundary edges and their halves stay single, interior edges stay
paired).  The non-degeneracy hypotheses cannot be dropped: the
counterexample satisfies the claim's closedness yet breaks the
conclusion. -/
theorem c1_amended_watertight {K : Type} [LinearOrderedField K]
    (sq : K → K) (m : Mesh K) (point : Vec3 K) (radius maxEdgeLength : K)
    (Hval : ∀ t ∈ m.tris, t.1 < m.vertices.length ∧
      t.2.1 < m.vertices.length ∧ t.2.2 < m.vertices.length)
    (Hdist : ∀ t ∈ m.tris, t.1 ≠ t.2.1 ∧ t.2.1 ≠ t.2.2 ∧ t.2.2 ≠ t.1)
    (Hpair : m.tris.Pairwise (fun t1 t2 => triVertSet t1 ≠ triVertSet t2)) :
    ((∀ j ∈ m.tris.flatMap triEdges, edgeCount m.tris j = 2) →
      ∀ k ∈ (subdivideGeometryLocally sq m point radius
          maxEdgeLength).tris.flatMap triEdges,
        edgeCount (subdivideGeometryLocally sq m point radius
          maxEdgeLength).tris k = 2) ∧
    ((∀ j ∈ m.tris.flatMap triEdges,
        edgeCount m.tris j = 1 ∨ edgeCount m.tris j = 2) →
      ∀ k ∈ (subdivideGeometryLocally sq m point radius
          maxEdgeLength).tris.flatMap triEdges,
        edgeCount (subdivideGeometryLocally sq m point radius
          maxEdgeLength).tris k = 1 ∨
        edgeCount (subdivideGeometryLocally sq m point radius
          maxEdgeLength).tris k = 2) := by
  have hout : (subdivideGeometryLocally sq m point radius
      maxEdgeLength).tris =
      m.tris.flatMap (rebuildTri (subdivMarked m point radius maxEdgeLength)
        (midIdx m.vertices.length
          (subdivMarked m point radius maxEdgeLength))) := rfl
  have core := rebuild_outCnt_core m.vertices.length
    (subdivMarked m point radius maxEdgeLength) m.tris
    (subdivMarked_src m point radius maxEdgeLength) Hval Hdist Hpair
  constructor
  · intro Hclosed k hk
    rw [hout] at hk ⊢
    rcases core k hk with h | ⟨j, hj, hje⟩
    · exact h
    · rw [hje]
      exact Hclosed j hj
  · intro Hbound k hk
    rw [hout] at hk ⊢
    rcases core k hk with h | ⟨j, hj, hje⟩
    · exact Or.inr h
    · rw [hje]
      exact Hbound j hj

/-- Witness for the amended C1 theorem: a regular tetrahedron, fully
subdivided (all six edges marked), stays closed. -/
theorem c1_amended_witness :
    ((∀ t ∈ (⟨[⟨0, 0, 0⟩, ⟨1, 0, 0⟩, ⟨0, 1, 0⟩, ⟨0, 0, 1⟩],
        [(0, 1, 2), (0, 2, 3), (0, 3, 1), (1, 3, 2)]⟩ : Mesh ℚ).tris,
      t.1 < 4 ∧ t.2.1 < 4 ∧ t.2.2 < 4) ∧
    (∀ t ∈ (⟨[⟨0, 0, 0⟩, ⟨1, 0, 0⟩, ⟨0, 1, 0⟩, ⟨0, 0, 1⟩],
        [(0, 1, 2), (0, 2, 3), (0, 3, 1), (1, 3, 2)]⟩ : Mesh ℚ).tris,
      t.1 ≠ t.2.1 ∧ t.2.1 ≠ t.2.2 ∧ t.2.2 ≠ t.1) ∧
    (∀ j ∈ ([(0, 1, 2), (0, 2, 3), (0, 3, 1), (1, 3, 2)] :
        List Tri).flatMap triEdges,
      edgeCount [(0, 1, 2), (0, 2, 3), (0, 3, 1), (1, 3, 2)] j = 2)) ∧
    (∀ k ∈ (subdivideGeometryLocally Rat.sqrt
        (⟨[⟨0, 0, 0⟩, ⟨1, 0, 0⟩, ⟨0, 1, 0⟩, ⟨0, 0, 1⟩],
          [(0, 1, 2), (0, 2, 3), (0, 3, 1), (1, 3, 2)]⟩ : Mesh ℚ)
        ⟨0, 0, 0⟩ 10 (1/2)).tris.flatMap triEdges,
      edgeCount (subdivideGeometryLocally Rat.sqrt
        (⟨[⟨0, 0, 0⟩, ⟨1, 0, 0⟩, ⟨0, 1, 0⟩, ⟨0, 0, 1⟩],
          [(0, 1, 2), (0, 2, 3), (0, 3, 1), (1, 3, 2)]⟩ : Mesh ℚ)
        ⟨0, 0, 0⟩ 10 (1/2)).tris k = 2) :=
  ⟨⟨by with_unfolding_all decide, by with_unfolding_all decide,
    by with_unfolding_all decide⟩,
    (c1_amended_watertight Rat.sqrt
      (⟨[⟨0, 0, 0⟩, ⟨1, 0, 0⟩, ⟨0, 1, 0⟩, ⟨0, 0, 1⟩],
        [(0, 1, 2), (0, 2, 3), (0, 3, 1), (1, 3, 2)]⟩ : Mesh ℚ)
      ⟨0, 0, 0⟩ 10 (1/2) (by with_unfolding_all decide)
      (by with_unfolding_all decide) (by with_unfolding_all decide)).1
      (by with_unfolding_all decide)⟩

end Sculpt
